import Mathlib

/-!
# Verification of score.init's configuration resolver and dependency solver

Shallow embedding of the `score.init` package (files
`score/init/config/parser.py`, `score/init/config/helpers.py`,
`score/init/dependency.py`, `score/init/initializer.py`).

Modelling conventions:
* Python strings are Lean `String`s (manipulated through their `List Char`
  data where convenient).
* A `configparser.ConfigParser` is a `Doc`: an ordered association list of
  sections (section name to ordered key/value list) plus the implicit
  `DEFAULT` section.  `${...}` interpolation is modelled as the identity on
  raw values (no claim under scrutiny depends on interpolation), so reading
  a key returns its raw string.
* Python `dict`s keep insertion order and are modelled as association
  lists; Python `set`s are modelled as duplicate-free lists in insertion
  order, `set.pop()` removing the head.
* The file system is a finite map from path strings to already-parsed
  documents.  `os.path` operations are modelled syntactically (no
  normalisation pass; the working directory is the constant `/cwd`);
  `glob.glob` is modelled for literal (wildcard-free) patterns.
* Exceptions are `Except` errors; `warnings.warn` calls are collected in a
  returned list.
-/

/-! ## Python string helpers -/

/-- The characters Python's `str.strip()` removes. -/
def pyIsSpace (c : Char) : Bool :=
  c = ' ' ∨ c = '\t' ∨ c = '\n' ∨ c = '\r' ∨ c = '\x0b' ∨ c = '\x0c'

/-- `str.strip()` on a character list. -/
def stripList (l : List Char) : List Char :=
  ((l.dropWhile pyIsSpace).reverse.dropWhile pyIsSpace).reverse

/-- Python `value.strip()`. -/
def pyStrip (s : String) : String :=
  String.mk (stripList s.data)

/-- Python `value.split('\n')` on a character list. -/
def splitNl (l : List Char) : List (List Char) :=
  match l with
  | [] => [[]]
  | c :: rest =>
      match splitNl rest with
      | [] => [[]]
      | h :: t => if c = '\n' then [] :: h :: t else (c :: h) :: t

/-- `score.init.config.helpers.parse_list`: split on newlines, strip each
part, drop empty parts. -/
def parseList (value : String) : List String :=
  ((splitNl value.data).map fun part => String.mk (stripList part)).filter
    (fun p => p ≠ "")

/-! ## Configuration documents (`configparser.ConfigParser`) -/

/-- An in-memory configuration document: the `DEFAULT` section plus the
ordered list of named sections, each an ordered key/value list. -/
structure Doc where
  default : List (String × String)
  sections : List (String × List (String × String))
deriving DecidableEq, Repr

/-- Insert or overwrite a key in an ordered key/value list (Python `dict`
assignment). -/
def upsert (l : List (String × String)) (k v : String) : List (String × String) :=
  match l with
  | [] => [(k, v)]
  | (k', v') :: rest => if k' = k then (k, v) :: rest else (k', v') :: upsert rest k v

/-- Look up a section by name (`parser[section]`, `None` when missing). -/
def lookupSection (d : Doc) (s : String) : Option (List (String × String)) :=
  d.sections.lookup s

/-- A key's value inside a section's own dict, ignoring `DEFAULT`. -/
def ownLookup (d : Doc) (s k : String) : Option String :=
  (lookupSection d s).bind fun sec => sec.lookup k

/-- `parser[section][key]`: the section's own value, else the `DEFAULT`
value; `none` models the `KeyError` (section missing, or key in neither
the section nor `DEFAULT`). -/
def docGet (d : Doc) (s k : String) : Option String :=
  (lookupSection d s).bind fun sec =>
    match sec.lookup k with
    | some v => some v
    | none => d.default.lookup k

/-- Iterating over `parser[section]` yields the `DEFAULT` keys first (with
the section's value where overridden), then the section-only keys. -/
def sectionItems (d : Doc) (s : String) : List (String × String) :=
  match lookupSection d s with
  | none => []
  | some own =>
      (d.default.map fun kv => (kv.1, (own.lookup kv.1).getD kv.2)) ++
        own.filter fun kv => d.default.lookup kv.1 = none

/-- Create a section if absent (`parser[section] = {}`). -/
def ensureSection (d : Doc) (s : String) : Doc :=
  match lookupSection d s with
  | some _ => d
  | none => { d with sections := d.sections ++ [(s, [])] }

/-- `parser[section][key] = value` (the section is assumed to exist). -/
def setKey (d : Doc) (s k v : String) : Doc :=
  { d with
    sections := d.sections.map fun sec =>
      if sec.1 = s then (sec.1, upsert sec.2 k v) else sec }

/-- `del parser[section][key]`, removing the key from the section's own
dict only. -/
def delKey (d : Doc) (s k : String) : Doc :=
  { d with
    sections := d.sections.map fun sec =>
      if sec.1 = s then (sec.1, sec.2.filter fun kv => kv.1 ≠ k) else sec }

/-! ## `_merge_settings` -/

/-- One step of `_merge_settings`: copy one parsed base over the
accumulated result.  Keys whose value equals that base's own `DEFAULT`
value for the key are skipped (not treated as overrides). -/
def mergeOne (acc : Doc) (other : Doc) : Doc :=
  other.sections.foldl
    (fun acc1 sec =>
      let acc2 := ensureSection acc1 sec.1
      (sectionItems other sec.1).foldl
        (fun acc3 kv =>
          if other.default.lookup kv.1 = some kv.2 then acc3
          else setKey acc3 sec.1 kv.1 kv.2)
        acc2)
    acc

/-- `_merge_settings(*settings)`: fold the parsed bases left to right over
a fresh empty parser. -/
def mergeSettings (others : List Doc) : Doc :=
  others.foldl mergeOne ⟨[], []⟩

/-- The value a single base contributes for section `s`, key `k` in
`_merge_settings` — `none` when the base does not mention it or when its
value coincides with the base's own `DEFAULT` value (such keys are not
overrides).  Reference definition used to state the merge theorem. -/
def effectiveValue (o : Doc) (s k : String) : Option String :=
  match lookupSection o s with
  | none => none
  | some sec =>
      match (match sec.lookup k with
             | some v => some v
             | none => o.default.lookup k) with
      | none => none
      | some v => if o.default.lookup k = some v then none else some v

/-! ## Errors and warnings -/

/-- The fatal exceptions the parser and solver can raise
(`ConfigurationError` variants carry the data their message is rendered
from; `fileNotFound` models the `IOError` of a failing `open`; `fuelOut`
is the artificial recursion bound, unreachable on terminating runs). -/
inductive Err where
  | configLoop (visited : List String)
  | diffMissingOriginal (section_ key file : String)
  | replaceMissingOriginal (section_ key file : String)
  | diffLineNotFound (section_ key line : String)
  | invalidReplacements (section_ key : String)
  | includeBasedOn
  | fileNotFound (file : String)
  | emptyDiffLine (section_ key : String)
  | fuelOut
deriving DecidableEq, Repr

/-- Non-fatal `warnings.warn` calls. -/
inductive Warn where
  | deleteMissing (section_ key file : String)
  | replaceNoMatch (regex section_ key : String)
deriving DecidableEq, Repr

/-- Equality of `Except` results is decidable (used to settle concrete
runs by `decide`). -/
instance instDecEqExcept {ε α : Type} [DecidableEq ε] [DecidableEq α] :
    DecidableEq (Except ε α)
  | .error e, .error f =>
      if h : e = f then .isTrue (by rw [h])
      else .isFalse (by intro hh; cases hh; exact h rfl)
  | .error _, .ok _ => .isFalse (by intro h; cases h)
  | .ok _, .error _ => .isFalse (by intro h; cases h)
  | .ok a, .ok b =>
      if h : a = b then .isTrue (by rw [h])
      else .isFalse (by intro hh; cases hh; exact h rfl)

/-- `Except` bind on a success, as a rewrite rule. -/
theorem exceptBind_ok {e a b : Type} (x : a) (f : a → Except e b) :
    (Except.ok x >>= f) = f x := rfl

/-- `Except` bind on a failure, as a rewrite rule. -/
theorem exceptBind_err {e a b : Type} (er : e) (f : a → Except e b) :
    ((Except.error er : Except e a) >>= f) = .error er := rfl

/-- The message of the configuration-loop error: it names every absolute
path on the active resolution stack. -/
def errMessage : Err → String
  | .configLoop visited =>
      "Configuration file loop:\n - " ++ String.intercalate "\n - " visited
  | _ => ""

/-! ## `_apply_diff` -/

/-- Remove the leading `<diff>` marker and surrounding whitespace
(`re.sub(r'^\s*<diff>\s*', '', diff)`; without the marker the value is
returned unchanged). -/
def stripDiffMarker (s : String) : String :=
  let l := s.data.dropWhile pyIsSpace
  match l with
  | '<' :: 'd' :: 'i' :: 'f' :: 'f' :: '>' :: rest =>
      String.mk (rest.dropWhile pyIsSpace)
  | _ => s

/-- One diff body line applied to the state (current lines, anchor):
a context line moves the anchor past its first occurrence, a removal
line deletes its first occurrence (which becomes the anchor), an
addition line inserts at the anchor — the anchor is not advanced. -/
def diffStep (sec key : String) (st : List String × Nat) (line : String) :
    Except Err (List String × Nat) :=
  match line.data with
  | [] => .error (.emptyDiffLine sec key)
  | c :: rest =>
      if c ≠ '-' ∧ c ≠ '+' then
        match st.1.indexOf? line with
        | some i => .ok (st.1, i + 1)
        | none => .error (.diffLineNotFound sec key line)
      else if c = '-' then
        match st.1.indexOf? (String.mk rest) with
        | some i => .ok (st.1.eraseIdx i, i)
        | none => .error (.diffLineNotFound sec key line)
      else
        .ok (st.1.insertIdx st.2 (String.mk rest), st.2)

/-- `_apply_diff(section, key, original, diff)`. -/
def applyDiff (sec key original diffVal : String) : Except Err String := do
  let lines := parseList original
  let diffLines := (parseList (stripDiffMarker diffVal)).map pyStrip
  let (ls, _) ← diffLines.foldlM (diffStep sec key) (lines, 0)
  return String.intercalate "\n" ls

/-! ## The `_replace_regex` matcher

`_replace_regex` is
`<replace(?P<sep>.)(?P<regex>.*?)\1(?P<repl>.*?)(?:\1(?P<flags>.*))?>\s*`.
The matcher below implements exactly its backtracking semantics: the
two non-greedy groups grow from the shortest candidate, the optional
flags group is tried before the bare `>`, the greedy `flags` takes the
longest non-newline stretch whose next character is `>`, and `.` never
matches a newline. -/

/-- Longest split `(flags, rest)` of `l` such that `flags` contains no
newline and is followed by `'>'` — the greedy `(?P<flags>.*)` followed by
the literal `>`. -/
def flagsSplit (l : List Char) : Option (List Char × List Char) :=
  match l with
  | [] => none
  | c :: rest =>
      if c = '\n' then none
      else
        match flagsSplit rest with
        | some (fl, r) => some (c :: fl, r)
        | none => if c = '>' then some ([], rest) else none

/-- After the replacement candidate: try the optional
`(?:\1(?P<flags>.*))?` group first, then the bare `>`.  Returns
`(flags, consumed length up to and including the closing '>')`. -/
def closeAfterRepl (sep : Char) (l : List Char) : Option (List Char × Nat) :=
  (match l with
   | c :: rest =>
       if c = sep then
         match flagsSplit rest with
         | some (fl, _) => some (fl, 1 + fl.length + 1)
         | none => none
       else none
   | [] => none).orElse
    (fun _ =>
      match l with
      | '>' :: _ => some ([], 1)
      | _ => none)

/-- Non-greedy `(?P<repl>.*?)` scan: grow the replacement one
non-newline character at a time until the closing part matches.
Returns `(repl, flags, consumed length)`. -/
def scanRepl (sep : Char) (l : List Char) : Option (List Char × List Char × Nat) :=
  match closeAfterRepl sep l with
  | some (fl, n) => some ([], fl, n)
  | none =>
      match l with
      | [] => none
      | c :: rest =>
          if c = '\n' then none
          else
            match scanRepl sep rest with
            | some (repl, fl, n) => some (c :: repl, fl, n + 1)
            | none => none

/-- Non-greedy `(?P<regex>.*?)` scan up to the separator, continuing
with the replacement scan.  Returns `(regex, repl, flags, consumed)`. -/
def scanRegex (sep : Char) (l : List Char) : Option (List Char × List Char × List Char × Nat) :=
  (match l with
   | c :: rest =>
       if c = sep then
         match scanRepl sep rest with
         | some (repl, fl, n) => some (([] : List Char), repl, fl, n + 1)
         | none => none
       else none
   | [] => none).orElse
    (fun _ =>
      match l with
      | [] => none
      | c :: rest =>
          if c = '\n' then none
          else
            match scanRegex sep rest with
            | some (rgx, repl, fl, n) => some (c :: rgx, repl, fl, n + 1)
            | none => none)

/-- `_replace_regex.match(definition, start)` on the suffix of the
definition: on success returns the regex, replacement and flags groups
together with the total matched length (`len(match.group(0))`,
including the trailing `\s*`). -/
def matchReplace (l : List Char) : Option (String × String × String × Nat) :=
  match l with
  | '<' :: 'r' :: 'e' :: 'p' :: 'l' :: 'a' :: 'c' :: 'e' :: sep :: rest =>
      (scanRegex sep rest).map fun r =>
        let consumed := 9 + r.2.2.2
        let ws := ((l.drop consumed).takeWhile pyIsSpace).length
        (String.mk r.1, String.mk r.2.1, String.mk r.2.2.1, consumed + ws)
  | _ => none

/-! ## A fragment of Python `re` for pattern application

The adjustment patterns exercised by the parser are simple: literal
characters, backslash-escaped literals (e.g. `\.`), the any-character
dot and the end anchor `$`.  `reSub` implements `re.sub` for exactly
this fragment (leftmost match, first occurrence only unless global,
empty matches advance by one character, `$` also matches just before a
final newline). -/

/-- A compiled token of the supported regex fragment. -/
inductive RTok where
  | lit (c : Char)
  | anyChar
  | endAnchor
deriving DecidableEq, Repr

/-- Compile a pattern of the supported fragment. -/
def compileToks : List Char → List RTok
  | [] => []
  | '\\' :: c :: rest => .lit c :: compileToks rest
  | '\\' :: [] => []
  | '$' :: rest => .endAnchor :: compileToks rest
  | '.' :: rest => .anyChar :: compileToks rest
  | c :: rest => .lit c :: compileToks rest

/-- Match the tokens against a prefix of `s`; returns the unmatched
remainder on success. -/
def matchToks : List RTok → List Char → Option (List Char)
  | [], s => some s
  | .lit c :: ts, d :: s => if d = c then matchToks ts s else none
  | .anyChar :: ts, d :: s => if d ≠ '\n' then matchToks ts s else none
  | .endAnchor :: ts, s => if s = [] ∨ s = ['\n'] then matchToks ts s else none
  | _, [] => none

/-- A successful token match consumes a prefix: the remainder is no
longer than the subject. -/
theorem matchToks_length_le :
    ∀ (ts : List RTok) (s r : List Char), matchToks ts s = some r →
      r.length ≤ s.length := by
  intro ts
  induction ts with
  | nil => intro s r h; simp [matchToks] at h; subst h; exact le_rfl
  | cons t ts ih =>
      intro s r h
      cases t with
      | lit c =>
          cases s with
          | nil => simp [matchToks] at h
          | cons d s' =>
              simp only [matchToks] at h
              split at h
              · exact Nat.le_succ_of_le (ih s' r h)
              · exact absurd h (by simp)
      | anyChar =>
          cases s with
          | nil => simp [matchToks] at h
          | cons d s' =>
              simp only [matchToks] at h
              split at h
              · exact Nat.le_succ_of_le (ih s' r h)
              · exact absurd h (by simp)
      | endAnchor =>
          simp only [matchToks] at h
          split at h
          · exact ih s r h
          · exact absurd h (by simp)

/-- The scan of `re.sub`: walk the subject left to right, replacing
matches (all of them when `global_`, otherwise only the first).  The
explicit bound decreases on every step while the subject shrinks by at
least one character, so any bound above the subject's length is
sufficient and the `[]` fallback is unreachable. -/
def reSubScan (ts : List RTok) (repl : List Char) (global_ : Bool) :
    Nat → List Char → List Char
  | 0, _ => []
  | _ + 1, [] =>
      match matchToks ts [] with
      | some _ => repl
      | none => []
  | fuel + 1, c :: rest =>
      match matchToks ts (c :: rest) with
      | some remainder =>
          if remainder.length = (c :: rest).length then
            -- empty match: emit the replacement and advance one character
            if global_ then repl ++ c :: reSubScan ts repl global_ fuel rest
            else repl ++ c :: rest
          else if global_ then repl ++ reSubScan ts repl global_ fuel remainder
          else repl ++ remainder
      | none => c :: reSubScan ts repl global_ fuel rest

/-- `re.sub(regex, replacement, value, count)` for the supported
fragment (`count` is `0` for global, `1` otherwise in the source). -/
def reSub (pattern repl value : String) (global_ : Bool) : String :=
  String.mk
    (reSubScan (compileToks pattern.data) repl.data global_
      (value.data.length + 1) value.data)

/-! ## `_apply_replace` -/

/-- A successful `_replace_regex` match consumes at least the literal
`<replace` and separator. -/
theorem matchReplace_consumed_ge (l : List Char) (a b c : String) (n : Nat)
    (h : matchReplace l = some (a, b, c, n)) : 9 ≤ n := by
  unfold matchReplace at h
  split at h
  · rw [Option.map_eq_some'] at h
    obtain ⟨r, -, hr⟩ := h
    obtain ⟨r1, r2, r3, m⟩ := r
    simp only [Prod.mk.injEq] at hr
    omega
  · exact absurd h (by simp)

/-- The scanning loop of `_apply_replace`: as long as the *base value*
has characters at the cursor, match the next chain element of the
(stripped) definition at the cursor, advance the cursor by the matched
length and substitute into the running value (warning when the
substitution changes nothing). -/
def applyReplaceLoop (sec key orig : String) (defn : List Char) :
    Nat → Nat → String → List Warn → Except Err (String × List Warn)
  | 0, _, _, _ => .error .fuelOut
  | fuel + 1, start, replaced, ws =>
      if orig.data.drop start = [] then .ok (replaced, ws)
      else
        match matchReplace (defn.drop start) with
        | none => .error (.invalidReplacements sec key)
        | some (rgx, repl, flags, n) =>
            let global_ := flags.data.contains 'g'
            let tmp := reSub rgx repl replaced global_
            let ws' := if tmp = replaced then ws ++ [.replaceNoMatch rgx sec key] else ws
            applyReplaceLoop sec key orig defn fuel (start + n) tmp ws'
  -- The bound is sufficient for any value above the base value's length:
  -- the loop runs only while `start < orig.length` and every match
  -- advances `start` by at least nine (`matchReplace_consumed_ge`), so
  -- `Err.fuelOut` is unreachable from `applyReplace`.

/-- `_apply_replace(section, key, original, definition)`. -/
def applyReplace (sec key original definition : String) :
    Except Err (String × List Warn) :=
  applyReplaceLoop sec key original (pyStrip definition).data
    (original.data.length + 1) 0 original []

/-! ## `_apply_adjustment` / `_apply_adjustments` -/

/-- `value.strip().startswith('<diff>')`. -/
def isDiffValue (s : String) : Bool :=
  match s.data with
  | '<' :: 'd' :: 'i' :: 'f' :: 'f' :: '>' :: _ => true
  | _ => false

/-- `_apply_adjustment(file, settings, section, key, value)`: dispatch on
the adjustment value.  `<delete>` removes the key (warning if the
section or the section-own key is missing), `<diff>` and replace chains
require the original value (fatal `ConfigurationError` when
`settings[section][key]` raises), anything else is a literal overwrite
(creating the section when needed). -/
def applyAdjustment (file : String) (settings : Doc) (sec key value : String) :
    Except Err (Doc × List Warn) :=
  if pyStrip value = "<delete>" then
    match lookupSection settings sec with
    | none => .ok (settings, [.deleteMissing sec key file])
    | some own =>
        match own.lookup key with
        | some _ => .ok (delKey settings sec key, [])
        | none => .ok (settings, [.deleteMissing sec key file])
  else if isDiffValue (pyStrip value) then
    match docGet settings sec key with
    | none => .error (.diffMissingOriginal sec key file)
    | some original => do
        let newVal ← applyDiff sec key original value
        .ok (setKey settings sec key newVal, [])
  else if (matchReplace (pyStrip value).data).isSome then
    match docGet settings sec key with
    | none => .error (.replaceMissingOriginal sec key file)
    | some original => do
        let (newVal, ws) ← applyReplace sec key original value
        .ok (setKey settings sec key newVal, ws)
  else
    .ok (setKey (ensureSection settings sec) sec key value, [])

/-- Apply the key/value pairs of one section of the adjustment document
(`_apply_adjustments`' inner loop), skipping keys whose value equals the
adjustment document's own `DEFAULT` value. -/
def applySectionAdjustments (file : String) (adjustments : Doc) (sec : String) :
    Doc → List (String × String) → List Warn → Except Err (Doc × List Warn)
  | settings, [], ws => .ok (settings, ws)
  | settings, (key, value) :: rest, ws =>
      if adjustments.default.lookup key = some value then
        applySectionAdjustments file adjustments sec settings rest ws
      else do
        let (settings', ws') ← applyAdjustment file settings sec key value
        applySectionAdjustments file adjustments sec settings' rest (ws ++ ws')

/-- `_apply_adjustments(file, settings, adjustments)`: iterate over the
adjustment document's sections and keys and apply each value. -/
def applyAdjustments (file : String) (settings : Doc) (adjustments : Doc) :
    Except Err (Doc × List Warn) :=
  adjustments.sections.foldlM
    (fun st sec =>
      applySectionAdjustments file adjustments sec.1 st.1
        (sectionItems adjustments sec.1) st.2)
    (settings, ([] : List Warn))

/-! ## Path handling (`os.path`, modelled syntactically) -/

/-- The process working directory of the model. -/
def cwd : String := "/cwd"

/-- `os.path.isabs`. -/
def isAbs (p : String) : Bool :=
  match p.data with
  | '/' :: _ => true
  | _ => false

/-- `os.path.join` for the shapes the parser produces (second argument
relative). -/
def joinPath (a b : String) : String :=
  if a = "" then b
  else if a.data.getLast? = some '/' then a ++ b
  else a ++ "/" ++ b

/-- `os.path.abspath`, without the normalisation pass (paths are compared
purely syntactically in the model). -/
def abspath (p : String) : String :=
  if isAbs p then p else joinPath cwd p

/-- `os.path.dirname`. -/
def dirname (p : String) : String :=
  match (p.data.reverse.dropWhile (fun c => c ≠ '/')) with
  | [] => ""
  | ['/'] => "/"
  | _ :: rest => String.mk rest.reverse

/-- `glob.glob` for literal (wildcard-free) patterns: the pattern itself
when such a file exists, nothing otherwise. -/
def globLit (fs : List (String × Doc)) (pat : String) : List String :=
  if (fs.lookup pat).isSome then [pat] else []

/-! ## The recursive resolver (`parse` / `_parse` / `_parse_bases` /
`_parse_includes`) -/

/-- The modelled file system: a finite map from paths to already-parsed
documents (the INI text syntax itself is configparser behaviour and is
not under scrutiny). -/
abbrev FS := List (String × Doc)

/-- A `based_on` entry resolved to an absolute path: relative paths are
joined with the configuring file's `here` directory. -/
def resolveBase (here b : String) : String :=
  if isAbs b then b else abspath (joinPath here b)

/-- The loop over `parse_list(bases_string)` in `_parse_bases`: resolve
each base path against `here`, raise the configuration-loop error when
it is on the active `visited` stack, otherwise parse it with `p` and
collect it.  Returns the files, the parsed bases and their warnings. -/
def basesLoop (p : String → Except Err (Doc × List Warn)) (here : String)
    (visited : List String) :
    List String → List String → List Doc →
      Except Err (List String × List Doc × List Warn)
  | [], files, bases => .ok (files, bases, [])
  | b :: rest, files, bases =>
      let babs := resolveBase here b
      if babs ∈ visited then .error (.configLoop visited)
      else do
        let (doc, w) ← p babs
        let (files', bases', w') ←
          basesLoop p here visited rest (files ++ [babs]) (bases ++ [doc])
        .ok (files', bases', w ++ w')

/-- The loop over the include files of `_parse_includes`: parse each
include without recursion, reject includes that are `based_on` other
files, and apply the include as an adjustment layer over the
accumulated settings. -/
def includesLoop (p : String → Except Err (Doc × List Warn)) (file : String) :
    List String → Doc → List String → List Warn →
      Except Err (Doc × List String × List Warn)
  | [], settings, files, ws => .ok (settings, files, ws)
  | inc :: rest, settings, files, ws => do
      let (incDoc, w1) ← p inc
      match docGet incDoc "score.init" "based_on" with
      | some v =>
          if v ≠ "" then .error .includeBasedOn
          else do
            let (settings', w2) ← applyAdjustments file settings incDoc
            includesLoop p file rest settings' (files ++ [inc]) (ws ++ w1 ++ w2)
      | none => do
          let (settings', w2) ← applyAdjustments file settings incDoc
          includesLoop p file rest settings' (files ++ [inc]) (ws ++ w1 ++ w2)

/-- The initial document of `_parse`: the file's content over a `DEFAULT`
section whose `here` is the file's directory (`.` when empty). -/
def mkSettings (file : String) (doc : Doc) : Doc :=
  let d := dirname file
  let here := if d = "" then "." else d
  { default := doc.default.foldl (fun acc kv => upsert acc kv.1 kv.2) [("here", here)],
    sections := doc.sections }

/-- The bookkeeping step at the end of `_parse`: make sure `score.init`
exists and record the contributing `files` under `score.init/_files`
(appending to an inherited value when one is present). -/
def recordFiles (settings : Doc) (files : List String) : Doc :=
  let s := ensureSection settings "score.init"
  match docGet s "score.init" "_files" with
  | some old =>
      setKey s "score.init" "_files" (old ++ "\n" ++ String.intercalate "\n" files)
  | none => setKey s "score.init" "_files" (String.intercalate "\n" files)

/-- `_parse(file, visited, recurse)`, with an explicit recursion bound
(`fuel`, strictly larger than any reachable recursion depth because
every recursive call pushes a fresh path onto the `visited` stack and
the file system is finite; `Err.fuelOut` is unreachable on such runs). -/
def parseAux (fs : FS) : Nat → String → List String → Bool →
    Except Err (Doc × List Warn)
  | 0, _, _, _ => .error .fuelOut
  | fuel + 1, file, visited, recurse =>
      match fs.lookup file with
      | none => .error (.fileNotFound file)
      | some doc =>
          let settings := mkSettings file doc
          if recurse = false then .ok (settings, [])
          else
            let includes := (docGet settings "score.init" "include").getD ""
            let visited' := visited ++ [abspath file]
            let basesStep : Except Err (Doc × List String × List Warn) :=
              match docGet settings "score.init" "based_on" with
              | none => .ok (settings, [], [])
              | some basesString => do
                  let here := (settings.default.lookup "here").getD ""
                  let (files1, bases, w1) ←
                    basesLoop (fun b => parseAux fs fuel b visited' true) here
                      visited' (parseList basesString) [abspath file] []
                  let merged := mergeSettings bases
                  let (merged', w2) ← applyAdjustments file merged settings
                  .ok (merged', files1, w1 ++ w2)
            do
              let (settings2, files2, wB) ← basesStep
              let incFiles := (parseList includes).flatMap (globLit fs)
              let (settings3, files3, wI) ←
                includesLoop (fun f => parseAux fs fuel f visited' false) file
                  incFiles settings2 files2 wB
              .ok (recordFiles settings3 files3, wI)

/-- `parse(file)`: the public entry point, with enough fuel for any
terminating run on the given file system. -/
def parseFile (fs : FS) (file : String) : Except Err (Doc × List Warn) :=
  parseAux fs (fs.length + 1) file [] true

/-! ## `DependencySolver.solve` (`score/init/dependency.py`) -/

/-- The solver's dependency dictionary: aliases in insertion order, each
with its dependency set (a duplicate-free list in insertion order). -/
abbrev DepMap := List (String × List String)

/-- Membership in `self._dependencies` (the full original mapping). -/
def isKeyOf (m : DepMap) (x : String) : Bool :=
  (m.map Prod.fst).contains x

/-- The total number of dependencies left in the working map — the
decreasing measure of the solver's loops. -/
def totalSize (d : DepMap) : Nat :=
  (d.map fun p => p.2.length).sum

/-- Unfolding lemma for `totalSize`. -/
theorem totalSize_cons (k : String) (ds : List String) (rest : DepMap) :
    totalSize ((k, ds) :: rest) = ds.length + totalSize rest := by
  simp [totalSize]

/-- The first phase of `solve()`: aliases without dependencies go
straight to the output; every other alias enters the working map, and
each of its dependencies that is not itself a key of the mapping is
appended to the output (once per referencing alias). -/
def phase1 (m : DepMap) : DepMap → (List String × DepMap) → List String × DepMap
  | [], acc => acc
  | (k, ds) :: rest, (s, d) =>
      if ds = [] then phase1 m rest (s ++ [k], d)
      else phase1 m rest (s ++ ds.filter (fun x => ¬ isKeyOf m x), d ++ [(k, ds)])
  -- (like the source, membership tests go against the full mapping `m`)

/-- One pass of the `while updated` loop: walk the snapshot of the
working map's items; dependencies already in the output are removed,
and an alias whose whole set is satisfied is appended to the output
(visible to the items processed later in the same pass) and dropped. -/
def passOnce : List String → DepMap → Bool × List String × DepMap
  | sorted_, [] => (false, sorted_, [])
  | sorted_, (k, ds) :: rest =>
      if ds.filter (fun x => x ∈ sorted_) = [] then
        let r := passOnce sorted_ rest
        (r.1, r.2.1, (k, ds) :: r.2.2)
      else if ds.all (fun x => x ∈ sorted_) then
        let r := passOnce (sorted_ ++ [k]) rest
        (true, r.2.1, r.2.2)
      else
        let r := passOnce sorted_ rest
        (true, r.2.1, (k, ds.filter (fun x => x ∉ sorted_)) :: r.2.2)

/-- A pass that reports progress strictly shrinks the working map's
total size; a pass without progress changes nothing. -/
theorem passOnce_spec (sorted_ : List String) (d : DepMap) :
    (((passOnce sorted_ d).1 = true → totalSize (passOnce sorted_ d).2.2 < totalSize d) ∧
      ((passOnce sorted_ d).1 = false →
        (passOnce sorted_ d).2.1 = sorted_ ∧ (passOnce sorted_ d).2.2 = d)) := by
  induction d generalizing sorted_ with
  | nil => simp [passOnce, totalSize]
  | cons p rest ih =>
      obtain ⟨k, ds⟩ := p
      simp only [passOnce]
      split
      · constructor
        · intro hu
          simp only at hu ⊢
          have := (ih sorted_).1 hu
          rw [totalSize_cons, totalSize_cons]
          omega
        · intro hu
          simp only at hu ⊢
          have := (ih sorted_).2 hu
          simp [this.1, this.2]
      · split
        · rename_i hne hall
          refine ⟨fun _ => ?_, fun hu => by simp at hu⟩
          simp only
          have hle : totalSize (passOnce (sorted_ ++ [k]) rest).2.2 ≤ totalSize rest := by
            rcases hu : (passOnce (sorted_ ++ [k]) rest).1 with _ | _
            · exact le_of_eq (congrArg totalSize ((ih (sorted_ ++ [k])).2 hu).2)
            · exact le_of_lt ((ih (sorted_ ++ [k])).1 hu)
          have hds : 0 < ds.length := by
            rcases ds with _ | ⟨y, ds'⟩
            · simp at hne
            · simp
          rw [totalSize_cons]
          omega
        · rename_i hne hall
          refine ⟨fun _ => ?_, fun hu => by simp at hu⟩
          simp only
          have hle : totalSize (passOnce sorted_ rest).2.2 ≤ totalSize rest := by
            rcases hu : (passOnce sorted_ rest).1 with _ | _
            · exact le_of_eq (congrArg totalSize ((ih sorted_).2 hu).2)
            · exact le_of_lt ((ih sorted_).1 hu)
          have hlt : (ds.filter (fun x => x ∉ sorted_)).length < ds.length := by
            apply List.length_filter_lt_length_iff_exists.mpr
            have : ∃ x ∈ ds, x ∈ sorted_ := by
              by_contra hc
              push_neg at hc
              exact hne (List.filter_eq_nil_iff.mpr (by simpa using hc))
            obtain ⟨x, hx, hxs⟩ := this
            exact ⟨x, hx, by simpa using hxs⟩
          rw [totalSize_cons, totalSize_cons]
          omega

/-- The `while updated` loop of `solve()`.  Any bound above the working
map's total size is sufficient (`passOnce_spec`): each productive pass
strictly shrinks it, so the `0` fallback is unreachable from
`dsSolve`. -/
def whileLoop : Nat → List String → DepMap → List String × DepMap
  | 0, sorted_, deps => (sorted_, deps)
  | fuel + 1, sorted_, deps =>
      match passOnce sorted_ deps with
      | (true, s', d') => whileLoop fuel s' d'
      | (false, s', d') => (s', d')

/-- `set.pop()` on the working map: remove and return the first element
of `k`'s dependency set. -/
def popDep (d : DepMap) (k : String) : Option (String × DepMap) :=
  match d with
  | [] => none
  | (k', ds) :: rest =>
      if k' = k then
        match ds with
        | [] => none
        | x :: ds' => some (x, (k', ds') :: rest)
      else
        match popDep rest k with
        | some (x, rest') => some (x, (k', ds) :: rest')
        | none => none

/-- `popDep` removes exactly one dependency. -/
theorem popDep_totalSize (d : DepMap) (k : String) :
    ∀ (x : String) (d' : DepMap),
      popDep d k = some (x, d') → totalSize d' + 1 = totalSize d := by
  induction d with
  | nil => intro x d' h; simp [popDep] at h
  | cons p rest ih =>
      intro x d' h
      obtain ⟨k', ds⟩ := p
      simp only [popDep] at h
      split at h
      · cases ds with
        | nil => simp at h
        | cons y ds' =>
            simp only [Option.some.injEq, Prod.mk.injEq] at h
            obtain ⟨-, rfl⟩ := h
            rw [totalSize_cons, totalSize_cons]
            simp
            omega
      · cases hrec : popDep rest k with
        | none => rw [hrec] at h; simp at h
        | some q =>
            rw [hrec] at h
            obtain ⟨y, rest'⟩ := q
            simp only [Option.some.injEq, Prod.mk.injEq] at h
            obtain ⟨-, rfl⟩ := h
            have := ih y rest' hrec
            rw [totalSize_cons, totalSize_cons]
            omega

/-- The cycle walk of `solve()`'s failure branch: starting from an
arbitrary stuck alias, repeatedly pop one outgoing dependency until an
alias repeats; every pop removes the popped element from its set, so
any bound above the working map's total size is sufficient
(`popDep_totalSize`) and the `0` fallback is unreachable from
`dsSolve`. -/
def findLoop : Nat → DepMap → List String → String → List String
  | 0, _, prior, last => prior ++ [last]
  | fuel + 1, deps, prior, last =>
      if last ∈ prior then prior ++ [last]
      else
        match popDep deps last with
        | none => prior ++ [last]  -- models the unreachable KeyError of `set.pop()`
        | some (x, deps') => findLoop fuel deps' (prior ++ [last]) x

/-- `DependencySolver.solve()`: phase 1, the `while updated` loop, then
either the sorted output or the discovered dependency loop. -/
def dsSolve (m : DepMap) : Except (List String) (List String) :=
  let p := phase1 m m ([], [])
  let w := whileLoop (totalSize p.2 + 1) p.1 p.2
  match w.2 with
  | [] => .ok w.1
  | (item, _) :: _ =>
      match popDep w.2 item with
      | none => .error [item]  -- models the unreachable KeyError of `set.pop()`
      | some (x, deps') => .error (findLoop (totalSize deps' + 1) deps' [item] x)

/-- An edge of the dependency graph recorded by the mapping: alias `a`
declares a dependency on alias `b`. -/
def depEdge (m : DepMap) (a b : String) : Prop :=
  ∃ ds, (a, ds) ∈ m ∧ b ∈ ds

/-- The mapping contains a cycle: a nonempty collection of aliases,
each of which is a key whose dependency set contains another member of
the collection.  (Following such in-collection successors from any
member must eventually revisit an alias, and conversely the nodes of
any genuine edge cycle form such a collection.) -/
def hasCycle (m : DepMap) : Prop :=
  ∃ c : List String, c ≠ [] ∧
    ∀ x ∈ c, ∃ ds, (x, ds) ∈ m ∧ ∃ y ∈ c, y ∈ ds

/-- The invariant of `solve()`'s main loop state (output list and
working map), relative to the original mapping `m`: the working keys
are duplicate-free, every working dependency set is nonempty and a
subset of its alias's original set, every working dependency is a key
of `m` or already in the output, and every key of `m` is in the output
or still a working key. -/
def solverInv (m : DepMap) (sorted_ : List String) (d : DepMap) : Prop :=
  (d.map Prod.fst).Nodup ∧
  (∀ e ∈ d, e.2 ≠ []) ∧
  (∀ e ∈ d, ∃ ds0, (e.1, ds0) ∈ m ∧ e.2 ⊆ ds0) ∧
  (∀ e ∈ d, ∀ y ∈ e.2, isKeyOf m y = true ∨ y ∈ sorted_) ∧
  (∀ k, isKeyOf m k = true → k ∈ sorted_ ∨ k ∈ d.map Prod.fst)

/-! ## `_remove_missing_optional_dependencies`
(`score/init/initializer.py`) -/

/-- The alias a declared dependency name resolves to: the consuming
alias's private redirect map when it has one, else the name itself. -/
def redirectOf (aliases : List (String × List (String × String)))
    (alias_ dep : String) : String :=
  (((aliases.lookup alias_).bind fun m => m.lookup dep)).getD dep

/-- Append `alias_` to the dependants recorded for `dep` (the
`missing` dict of the source: insertion-ordered, created on demand). -/
def addMissing (missing : List (String × List String)) (dep alias_ : String) :
    List (String × List String) :=
  match missing with
  | [] => [(dep, [alias_])]
  | (d, as) :: rest =>
      if d = dep then (d, as ++ [alias_]) :: rest
      else (d, as) :: addMissing rest dep alias_

/-- The per-alias dependency walk of
`_remove_missing_optional_dependencies`: keep dependencies whose
(redirected) target is a known module, silently drop missing optional
ones, record missing required ones. -/
def pruneDeps (modules : List String)
    (aliases : List (String × List (String × String))) (alias_ : String) :
    List (String × Bool) → List (String × List String) →
      List String × List (String × List String)
  | [], missing => ([], missing)
  | (dep, opt) :: rest, missing =>
      if redirectOf aliases alias_ dep ∈ modules then
        let r := pruneDeps modules aliases alias_ rest missing
        (dep :: r.1, r.2)
      else if opt then
        pruneDeps modules aliases alias_ rest missing
      else
        pruneDeps modules aliases alias_ rest (addMissing missing dep alias_)

/-- `_remove_missing_optional_dependencies(modules, dependency_map,
dependency_aliases)`: prune every alias's dependency list; raise a
`ConfigurationError` naming every missing required dependency and its
dependants when any was found, otherwise return the pruned map (the
error payload is the structured `missing` dict the message is rendered
from). -/
def removeMissing (modules : List String)
    (dmap : List (String × List (String × Bool)))
    (aliases : List (String × List (String × String))) :
    Except (List (String × List String)) (List (String × List String)) :=
  let r := dmap.foldl
    (fun (acc : List (String × List String) × List (String × List String)) e =>
      let pr := pruneDeps modules aliases e.1 e.2 acc.2
      (acc.1 ++ [(e.1, pr.1)], pr.2))
    ([], [])
  if r.2 = [] then .ok r.1 else .error r.2

/-! ## Supporting lemmas -/

/-- Rebuilding a string from its characters is the identity. -/
theorem mk_data_eq (s : String) : String.mk s.data = s := rfl

/-- `insertIdx` splits the list at the insertion point. -/
theorem insertIdx_take_drop (l : List α) (n : Nat) (x : α) (h : n ≤ l.length) :
    l.insertIdx n x = l.take n ++ x :: l.drop n := by
  induction l generalizing n with
  | nil =>
      have : n = 0 := Nat.le_zero.mp (by simpa using h)
      subst this
      simp
  | cons a t ih =>
      cases n with
      | zero => simp
      | succ n =>
          simp only [List.insertIdx_succ_cons, List.take_succ_cons, List.drop_succ_cons,
            List.cons_append, List.cons.injEq, true_and]
          exact ih n (by simpa using h)

/-- An addition line `+x` inserts `x` at the anchor and leaves the
anchor unchanged. -/
theorem diffStep_plus (sec key x : String) (lines : List String) (anchor : Nat) :
    diffStep sec key (lines, anchor) ("+" ++ x) =
      .ok (lines.insertIdx anchor x, anchor) := by
  have hd : ("+" ++ x).data = '+' :: x.data := by
    rw [String.data_append]
    rfl
  simp [diffStep, hd, mk_data_eq]

/-- A run of addition lines folded over the diff state, with the prefix
before the anchor split off: each insertion happens at the same anchor,
so the additions pile up in reverse order between the prefix and the
previously inserted block. -/
theorem diffStep_plus_run (sec key : String) (anchor : Nat) (adds : List String) :
    ∀ (pre rev suf : List String), pre.length = anchor →
      (adds.map (fun x => "+" ++ x)).foldlM (diffStep sec key)
          (pre ++ rev ++ suf, anchor) =
        .ok (pre ++ adds.reverse ++ rev ++ suf, anchor) := by
  induction adds with
  | nil => intro pre rev suf hpre; simp [List.foldlM, pure, Except.pure]
  | cons a rest ih =>
      intro pre rev suf hpre
      rw [List.map_cons, List.foldlM_cons, diffStep_plus]
      have hins : (pre ++ rev ++ suf).insertIdx anchor a = pre ++ (a :: rev) ++ suf := by
        rw [List.append_assoc]
        rw [insertIdx_take_drop _ anchor a (by simp; omega)]
        rw [← hpre, List.take_left, List.drop_left]
        simp
      rw [hins]
      have h2 : (Except.ok (pre ++ rest.reverse ++ (a :: rev) ++ suf, anchor) :
          Except Err (List String × Nat)) =
          .ok (pre ++ (a :: rest).reverse ++ rev ++ suf, anchor) := by
        simp
      exact (ih pre (a :: rev) suf hpre).trans h2

/-! ## The claims -/

/-- **C1, counterexample.**  The claim predicts that consecutive
addition lines keep the diff body's order: on base lines
`foo, bar` and diff body `+a, +b` (empty anchor history) it predicts
`a, b, foo, bar`.  The code inserts at the anchor without advancing it,
producing `b, a, foo, bar` instead. -/
theorem c1_counterexample :
    applyDiff "score.init" "modules" "foo\nbar" "<diff>\n+a\n+b" =
        .ok "b\na\nfoo\nbar" ∧
      applyDiff "score.init" "modules" "foo\nbar" "<diff>\n+a\n+b" ≠
        .ok "a\nb\nfoo\nbar" := by
  decide

/-- **C1, amended.**  In diff application, every addition line `+x`
inserts `x` at the current anchor position and the anchor is *not*
advanced, so a run of consecutive addition lines appears in the result
in *reverse* order of the diff body, placed between the (unchanged)
prefix before the anchor and the rest; with an empty anchor history the
anchor is 0, so each insertion happens at index 0. -/
theorem c1_amended (sec key : String) (lines : List String) (anchor : Nat)
    (adds : List String) (h : anchor ≤ lines.length) :
    (adds.map (fun x => "+" ++ x)).foldlM (diffStep sec key) (lines, anchor) =
      .ok (lines.take anchor ++ adds.reverse ++ lines.drop anchor, anchor) := by
  have hsplit : lines = lines.take anchor ++ [] ++ lines.drop anchor := by
    simp
  calc (adds.map (fun x => "+" ++ x)).foldlM (diffStep sec key) (lines, anchor)
      = (adds.map (fun x => "+" ++ x)).foldlM (diffStep sec key)
          (lines.take anchor ++ [] ++ lines.drop anchor, anchor) := by rw [← hsplit]
    _ = .ok (lines.take anchor ++ adds.reverse ++ [] ++ lines.drop anchor, anchor) :=
        diffStep_plus_run sec key anchor adds _ [] _ (by rw [List.length_take]; omega)
    _ = .ok (lines.take anchor ++ adds.reverse ++ lines.drop anchor, anchor) := by simp

/-- **C1, witness** for the amended theorem: two consecutive additions
with empty anchor history on base `foo, bar` yield `b, a, foo, bar`. -/
theorem c1_amended_witness :
    (["a", "b"].map (fun x => "+" ++ x)).foldlM (diffStep "score.init" "modules")
        ((["foo", "bar"] : List String), 0) = .ok (["b", "a", "foo", "bar"], 0) := by
  have := c1_amended "score.init" "modules" ["foo", "bar"] 0 ["a", "b"] (by decide)
  simpa using this

/-- **C2, counterexample.**  On base value `sqlite:///db.sqlite3` with
the chain `<replace:database:app>` then `<replace:\.sqlite3$:.db>`, the
claim predicts `sqlite:///app.db`; the code returns the base unchanged
(the first pattern matches nothing, which only warns, and the loop —
whose condition compares the cursor *into the definition* against the
*base value* — stops before the second element). -/
theorem c2_counterexample :
    applyReplace "score.db" "sqlalchemy.url" "sqlite:///db.sqlite3"
        "<replace:database:app>\n<replace:\\.sqlite3$:.db>" =
      .ok ("sqlite:///db.sqlite3",
        [.replaceNoMatch "database" "score.db" "sqlalchemy.url"]) ∧
      "sqlite:///db.sqlite3" ≠ "sqlite:///app.db" := by
  decide

/-- **C2, amended.**  A replace chain is applied in declaration order,
each element on the previous step's output, but only while the cursor
into the definition is still inside the *base value's* length.  For
base `"sqlite:///db.sqlite3"` (20 characters) the first element
consumes 23 characters of the definition and matches nothing in the
base (a non-fatal warning); the loop then stops before the second
element, so the result is the unchanged `"sqlite:///db.sqlite3"`. -/
theorem c2_amended :
    matchReplace "<replace:database:app>\n<replace:\\.sqlite3$:.db>".data =
        some ("database", "app", "", 23) ∧
      reSub "database" "app" "sqlite:///db.sqlite3" false = "sqlite:///db.sqlite3" ∧
      "sqlite:///db.sqlite3".data.drop 23 = [] ∧
      applyReplace "score.db" "sqlalchemy.url" "sqlite:///db.sqlite3"
          "<replace:database:app>\n<replace:\\.sqlite3$:.db>" =
        .ok ("sqlite:///db.sqlite3",
          [.replaceNoMatch "database" "score.db" "sqlalchemy.url"]) := by
  decide

/-- A successful `_replace_regex` match begins with `<replace` and a
separator. -/
theorem matchReplace_shape (l : List Char) (m : String × String × String × Nat)
    (h : matchReplace l = some m) :
    ∃ sep rest, l = '<' :: 'r' :: 'e' :: 'p' :: 'l' :: 'a' :: 'c' :: 'e' :: sep :: rest := by
  unfold matchReplace at h
  split at h
  · rename_i sep rest
    exact ⟨sep, rest, rfl⟩
  · exact absurd h (by simp)

/-- A value that reads as an adjustment directive is classified
unambiguously: helper for the missing-target branches of
`_apply_adjustment` (the `<delete>` test precedes the `<diff>` test,
which precedes the replace-chain test). -/
theorem applyAdjustment_diff_missing (file : String) (settings : Doc)
    (s k value : String) (hmiss : docGet settings s k = none)
    (hdiff : isDiffValue (pyStrip value) = true) :
    applyAdjustment file settings s k value = .error (.diffMissingOriginal s k file) := by
  have hne : pyStrip value ≠ "<delete>" := by
    intro he
    rw [he] at hdiff
    exact absurd hdiff (by decide)
  unfold applyAdjustment
  rw [if_neg hne, if_pos hdiff, hmiss]

/-- Missing-target behaviour of the replace-chain branch of
`_apply_adjustment`. -/
theorem applyAdjustment_replace_missing (file : String) (settings : Doc)
    (s k value : String) (hmiss : docGet settings s k = none)
    (hrep : (matchReplace (pyStrip value).data).isSome = true) :
    applyAdjustment file settings s k value =
      .error (.replaceMissingOriginal s k file) := by
  obtain ⟨m, hm⟩ := Option.isSome_iff_exists.mp hrep
  obtain ⟨sep, rest, hshape⟩ := matchReplace_shape _ _ hm
  have hne : pyStrip value ≠ "<delete>" := by
    intro he
    rw [he] at hshape
    have h8 : "<delete>".data = ['<', 'd', 'e', 'l', 'e', 't', 'e', '>'] := rfl
    rw [h8] at hshape
    injection hshape with h1 h2
    injection h2 with h3 h4
    exact absurd h3 (by decide)
  have hnd : ¬ isDiffValue (pyStrip value) = true := by
    unfold isDiffValue
    rw [hshape]
    simp
  unfold applyAdjustment
  rw [if_neg hne, if_neg hnd, if_pos hrep, hmiss]

/-- Missing-target behaviour of the `<delete>` branch of
`_apply_adjustment`: a warning, never an error. -/
theorem applyAdjustment_delete_missing (file : String) (settings : Doc)
    (s k : String) (hmiss : ownLookup settings s k = none) :
    applyAdjustment file settings s k "<delete>" =
      .ok (settings, [.deleteMissing s k file]) := by
  have hd : pyStrip "<delete>" = "<delete>" := by decide
  unfold applyAdjustment
  rw [hd, if_pos rfl]
  unfold ownLookup at hmiss
  cases hls : lookupSection settings s with
  | none => rfl
  | some own =>
      rw [hls] at hmiss
      simp only [Option.some_bind] at hmiss
      simp [hmiss]

/-- A `docGet` miss is in particular an own-key miss. -/
theorem docGet_none_ownLookup_none (settings : Doc) (s k : String)
    (h : docGet settings s k = none) : ownLookup settings s k = none := by
  unfold docGet at h
  unfold ownLookup
  cases hls : lookupSection settings s with
  | none => simp
  | some own =>
      rw [hls] at h
      simp only [Option.some_bind] at h ⊢
      cases ho : own.lookup k with
      | none => rfl
      | some v => rw [ho] at h; simp at h

/-- **C3**–style helpers come later; **C7** first.

**C7.**  When an adjustment layer is applied against a base document, a
diff or replace-chain adjustment whose target section/key is missing
from the base (`settings[section][key]` raises) is a fatal
`ConfigurationError`, while a `<delete>` adjustment with a missing
target only emits a non-fatal warning and returns the settings
untouched, so resolution continues. -/
theorem c7_missing_target (file : String) (settings : Doc) (s k value : String)
    (hmiss : docGet settings s k = none) :
    (isDiffValue (pyStrip value) = true →
        applyAdjustment file settings s k value =
          .error (.diffMissingOriginal s k file)) ∧
      ((matchReplace (pyStrip value).data).isSome = true →
        applyAdjustment file settings s k value =
          .error (.replaceMissingOriginal s k file)) ∧
      (value = "<delete>" →
        applyAdjustment file settings s k value =
          .ok (settings, [.deleteMissing s k file])) := by
  refine ⟨fun hdiff => applyAdjustment_diff_missing file settings s k value hmiss hdiff,
    fun hrep => applyAdjustment_replace_missing file settings s k value hmiss hrep,
    fun hdel => ?_⟩
  subst hdel
  exact applyAdjustment_delete_missing file settings s k
    (docGet_none_ownLookup_none settings s k hmiss)

/-- **C7, witness**: on an empty base document, a diff adjustment to
`score.db/destroyable` is a fatal error, a replace adjustment too, and
a `<delete>` only warns. -/
theorem c7_missing_target_witness :
    applyAdjustment "local.conf" ⟨[], []⟩ "score.db" "destroyable" "<diff>\n+x" =
        .error (.diffMissingOriginal "score.db" "destroyable" "local.conf") ∧
      applyAdjustment "local.conf" ⟨[], []⟩ "score.db" "url" "<replace:a:b>" =
        .error (.replaceMissingOriginal "score.db" "url" "local.conf") ∧
      applyAdjustment "local.conf" ⟨[], []⟩ "score.db" "destroyable" "<delete>" =
        .ok (⟨[], []⟩, [.deleteMissing "score.db" "destroyable" "local.conf"]) := by
  refine ⟨(c7_missing_target "local.conf" ⟨[], []⟩ "score.db" "destroyable" "<diff>\n+x"
      (by decide)).1 (by decide),
    (c7_missing_target "local.conf" ⟨[], []⟩ "score.db" "url" "<replace:a:b>"
      (by decide)).2.1 (by decide),
    (c7_missing_target "local.conf" ⟨[], []⟩ "score.db" "destroyable" "<delete>"
      (by decide)).2.2 rfl⟩

/-- **C8, counterexample.**  The claim says applying `<delete>` to a
value that does not exist is a *fatal error*; the code instead returns
successfully with a non-fatal warning. -/
theorem c8_counterexample :
    applyAdjustment "local.conf" ⟨[], []⟩ "score.db" "destroyable" "<delete>" =
        .ok (⟨[], []⟩, [.deleteMissing "score.db" "destroyable" "local.conf"]) ∧
      (applyAdjustment "local.conf" ⟨[], []⟩ "score.db" "destroyable" "<delete>").isOk
        = true := by
  decide

/-- **C8, amended.**  Applying a `<delete>` directive to a value that
does not exist in the base (no section of that name, or no section-own
key) is *not* fatal: the settings are returned unchanged together with
a non-fatal warning naming the section, the key and the adjusting
file. -/
theorem c8_amended (file : String) (settings : Doc) (s k : String)
    (hmiss : ownLookup settings s k = none) :
    applyAdjustment file settings s k "<delete>" =
      .ok (settings, [.deleteMissing s k file]) :=
  applyAdjustment_delete_missing file settings s k hmiss

/-- **C8, witness** for the amended theorem. -/
theorem c8_amended_witness :
    applyAdjustment "app.conf" ⟨[("x", "y")], [("sec", [("other", "v")])]⟩
        "sec" "gone" "<delete>" =
      .ok (⟨[("x", "y")], [("sec", [("other", "v")])]⟩,
        [.deleteMissing "sec" "gone" "app.conf"]) :=
  c8_amended "app.conf" ⟨[("x", "y")], [("sec", [("other", "v")])]⟩ "sec" "gone"
    (by decide)

/-! ## Association-list lemmas for documents -/

/-- Unfolding `List.lookup` at a cons cell via propositional equality. -/
theorem lookup_cons {β : Type} (k k0 : String) (v0 : β) (rest : List (String × β)) :
    ((k0, v0) :: rest).lookup k = if k = k0 then some v0 else rest.lookup k := by
  by_cases h : k = k0
  · simp [List.lookup, h]
  · simp [List.lookup, beq_eq_false_iff_ne.mpr h, h]

/-- `upsert` sets the key. -/
theorem lookup_upsert_self (l : List (String × String)) (k v : String) :
    (upsert l k v).lookup k = some v := by
  induction l with
  | nil => simp [upsert, lookup_cons]
  | cons p rest ih =>
      obtain ⟨k', v'⟩ := p
      unfold upsert
      by_cases h : k' = k
      · simp [h, lookup_cons]
      · simp [h, lookup_cons, Ne.symm h, ih]

/-- `upsert` leaves other keys alone. -/
theorem lookup_upsert_ne (l : List (String × String)) (k v k' : String)
    (h : k' ≠ k) : (upsert l k v).lookup k' = l.lookup k' := by
  induction l with
  | nil => simp [upsert, lookup_cons, h]
  | cons p rest ih =>
      obtain ⟨k0, v0⟩ := p
      unfold upsert
      by_cases h0 : k0 = k
      · subst h0
        simp [lookup_cons, h]
      · simp [h0, lookup_cons, ih]

/-- Looking a key up in a concatenation. -/
theorem lookup_append {β : Type} (a b : List (String × β)) (k : String) :
    (a ++ b).lookup k = ((a.lookup k).orElse fun _ => b.lookup k) := by
  induction a with
  | nil => simp
  | cons p rest ih =>
      obtain ⟨k0, v0⟩ := p
      by_cases h : k = k0
      · simp [lookup_cons, h]
      · simp [lookup_cons, h, ih]

/-- Looking up through a key-preserving map. -/
theorem lookup_map_keyed (l : List (String × String)) (g : String → String → String)
    (k : String) :
    ((l.map fun kv => (kv.1, g kv.1 kv.2)).lookup k) = (l.lookup k).map (g k) := by
  induction l with
  | nil => simp
  | cons p rest ih =>
      obtain ⟨k0, v0⟩ := p
      by_cases h : k = k0
      · subst h; simp [lookup_cons]
      · simp [lookup_cons, h, ih]

/-- Looking up through a filter that only inspects keys. -/
theorem lookup_filter_key (l : List (String × String)) (p : String → Bool)
    (k : String) :
    ((l.filter fun kv => p kv.1).lookup k) = if p k then l.lookup k else none := by
  induction l with
  | nil => simp
  | cons q rest ih =>
      obtain ⟨k0, v0⟩ := q
      by_cases h : k = k0
      · subst h
        by_cases hp : p k
        · simp [List.filter, hp, lookup_cons]
        · simp [List.filter, hp, ih, lookup_cons]
      · by_cases hp : p k0
        · simp [List.filter, hp, lookup_cons, h, ih]
        · simp [List.filter, hp, ih, lookup_cons, h]

/-- Looking up through the per-section rewrite `setKey` performs. -/
theorem lookup_mapSection {β : Type} (secs : List (String × β)) (f : β → β)
    (s0 s : String) :
    ((secs.map fun sec => if sec.1 = s0 then (sec.1, f sec.2) else sec).lookup s) =
      if s = s0 then (secs.lookup s0).map f else secs.lookup s := by
  induction secs with
  | nil => by_cases h : s = s0 <;> simp [h]
  | cons p rest ih =>
      obtain ⟨n, b⟩ := p
      simp only [List.map_cons]
      by_cases hn : n = s0 <;> by_cases hs : s = n
      · subst hn; subst hs
        simp [lookup_cons]
      · subst hn
        simp [lookup_cons, hs, ih]
      · subst hs
        simp [lookup_cons, hn]
      · simp [lookup_cons, hn, hs, ih, Ne.symm hn]

/-- `setKey` rewrites only the targeted section's key list. -/
theorem lookupSection_setKey (d : Doc) (s0 k0 v s : String) :
    lookupSection (setKey d s0 k0 v) s =
      if s = s0 then (lookupSection d s0).map (fun sec => upsert sec k0 v)
      else lookupSection d s := by
  unfold lookupSection setKey
  simp only
  exact lookup_mapSection d.sections (fun sec => upsert sec k0 v) s0 s

/-- `ensureSection` only ever adds an empty section. -/
theorem lookupSection_ensure (d : Doc) (s0 s : String) :
    lookupSection (ensureSection d s0) s =
      if s = s0 then some ((lookupSection d s0).getD []) else lookupSection d s := by
  unfold ensureSection
  cases h : lookupSection d s0 with
  | some sec =>
      by_cases hs : s = s0
      · subst hs; simp [h]
      · simp [hs]
  | none =>
      unfold lookupSection at h ⊢
      simp only
      rw [lookup_append]
      by_cases hs : s = s0
      · subst hs; simp [h, lookup_cons]
      · simp only [lookup_cons, if_neg hs]
        cases hh : List.lookup s d.sections <;> simp

/-- `ownLookup` is unchanged by `ensureSection`. -/
theorem ownLookup_ensure (d : Doc) (s0 s k : String) :
    ownLookup (ensureSection d s0) s k = ownLookup d s k := by
  unfold ownLookup
  rw [lookupSection_ensure]
  by_cases hs : s = s0
  · subst hs
    cases h : lookupSection d s with
    | some sec => simp [h]
    | none => simp [h]
  · rw [if_neg hs]

/-- `setKey` changes `ownLookup` only at the targeted section/key. -/
theorem ownLookup_setKey_ne (d : Doc) (s0 k0 v s k : String)
    (h : ¬ (s = s0 ∧ k = k0)) :
    ownLookup (setKey d s0 k0 v) s k = ownLookup d s k := by
  unfold ownLookup
  rw [lookupSection_setKey]
  by_cases hs : s = s0
  · subst hs
    have hk : k ≠ k0 := fun hk => h ⟨rfl, hk⟩
    cases hsec : lookupSection d s with
    | none => simp [hsec]
    | some sec => simp [hsec, lookup_upsert_ne sec k0 v k hk]
  · rw [if_neg hs]

/-- `setKey` sets the targeted key when the section exists. -/
theorem ownLookup_setKey_self (d : Doc) (s k v : String)
    (h : (lookupSection d s).isSome) :
    ownLookup (setKey d s k v) s k = some v := by
  unfold ownLookup
  rw [lookupSection_setKey, if_pos rfl]
  obtain ⟨sec, hsec⟩ := Option.isSome_iff_exists.mp h
  simp [hsec, lookup_upsert_self]

/-- Neither `ensureSection` nor `setKey` touches the `DEFAULT`
section. -/
theorem default_ensure_setKey (d : Doc) (s0 s1 k0 v : String) :
    (ensureSection d s0).default = d.default ∧ (setKey d s1 k0 v).default = d.default := by
  constructor
  · unfold ensureSection
    cases lookupSection d s0 <;> rfl
  · rfl

/-- A key outside an association list's keys is not found. -/
theorem lookup_eq_none_of_not_mem {β : Type} (l : List (String × β)) (k : String)
    (h : k ∉ l.map Prod.fst) : l.lookup k = none := by
  induction l with
  | nil => simp
  | cons p rest ih =>
      obtain ⟨k0, v0⟩ := p
      simp only [List.map_cons, List.mem_cons] at h
      push_neg at h
      rw [lookup_cons, if_neg h.1]
      exact ih h.2

/-- Folding `dict` assignments over an accumulator: with duplicate-free
keys, the assignments win over the accumulator. -/
theorem lookup_foldl_upsert (l : List (String × String)) (k : String) :
    ∀ acc, (l.map Prod.fst).Nodup →
      ((l.foldl (fun a kv => upsert a kv.1 kv.2) acc).lookup k) =
        ((l.lookup k).orElse fun _ => acc.lookup k) := by
  induction l with
  | nil => intro acc _; simp
  | cons p rest ih =>
      intro acc hnd
      obtain ⟨k0, v0⟩ := p
      simp only [List.map_cons, List.nodup_cons] at hnd
      simp only [List.foldl_cons]
      rw [ih _ hnd.2]
      by_cases hk : k = k0
      · subst hk
        have hnone : rest.lookup k = none :=
          lookup_eq_none_of_not_mem rest k hnd.1
        rw [hnone, lookup_cons, if_pos rfl]
        simp [lookup_upsert_self]
      · rw [lookup_cons, if_neg hk, lookup_upsert_ne acc k0 v0 k hk]

/-- The single non-recursive path of `_parse`: no `based_on`, no
`include` — the document itself, with `here` set and the bookkeeping
applied. -/
theorem parseAux_plain (fs : FS) (fuel : Nat) (file : String)
    (visited : List String) (doc : Doc)
    (h1 : fs.lookup file = some doc)
    (h2 : docGet (mkSettings file doc) "score.init" "based_on" = none)
    (h3 : docGet (mkSettings file doc) "score.init" "include" = none) :
    parseAux fs (fuel + 1) file visited true =
      .ok (recordFiles (mkSettings file doc) [], []) := by
  simp only [parseAux, h1, h2, h3]
  rfl

/-- **C9, counterexample.**  The already-fully-resolved document
`{app: {k: v}}` (no `based_on`, no `include`) is *not* returned
unchanged by a recursive parse: the result gains the `DEFAULT`
key `here`, a `score.init` section and the bookkeeping key
`score.init/_files`. -/
theorem c9_counterexample :
    parseFile [("/a.conf", ⟨[], [("app", [("k", "v")])]⟩)] "/a.conf" =
        .ok (⟨[("here", "/")],
          [("app", [("k", "v")]), ("score.init", [("_files", "")])]⟩, []) ∧
      (⟨[("here", "/")], [("app", [("k", "v")]), ("score.init", [("_files", "")])]⟩ : Doc)
        ≠ ⟨[], [("app", [("k", "v")])]⟩ := by
  decide

/-- `recordFiles` never touches the `DEFAULT` section. -/
theorem recordFiles_default (d : Doc) (files : List String) :
    (recordFiles d files).default = d.default := by
  simp only [recordFiles]
  split <;> simp [setKey, (default_ensure_setKey d "score.init" "x" "y" "z").1]

/-- `recordFiles` changes no section key other than
`score.init/_files`. -/
theorem recordFiles_ownLookup_ne (d : Doc) (files : List String) (s k : String)
    (h : ¬ (s = "score.init" ∧ k = "_files")) :
    ownLookup (recordFiles d files) s k = ownLookup d s k := by
  simp only [recordFiles]
  split <;> rw [ownLookup_setKey_ne _ _ _ _ _ _ h, ownLookup_ensure]

/-- `recordFiles` writes the bookkeeping key. -/
theorem recordFiles_ownLookup_self (d : Doc) (files : List String) :
    ownLookup (recordFiles d files) "score.init" "_files" =
      some (match docGet (ensureSection d "score.init") "score.init" "_files" with
            | some old => old ++ "\n" ++ String.intercalate "\n" files
            | none => String.intercalate "\n" files) := by
  simp only [recordFiles]
  have hsec : (lookupSection (ensureSection d "score.init") "score.init").isSome := by
    rw [lookupSection_ensure, if_pos rfl]
    rfl
  split <;> rw [ownLookup_setKey_self _ _ _ _ hsec]

/-- **C9, amended.**  Resolving a document with neither `based_on` nor
`include` (with recursion enabled) succeeds with no warnings and
returns the document *almost* unchanged: every `DEFAULT` key other
than `here` and every section key other than `score.init/_files` keep
their values, but `DEFAULT/here` is set to the file's directory and the
bookkeeping key `score.init/_files` is written (created empty, or
extended by a newline when the document already carried one). -/
theorem c9_amended (fs : FS) (fuel : Nat) (file : String) (visited : List String)
    (doc : Doc) (h1 : fs.lookup file = some doc)
    (h2 : docGet (mkSettings file doc) "score.init" "based_on" = none)
    (h3 : docGet (mkSettings file doc) "score.init" "include" = none)
    (hnd : (doc.default.map Prod.fst).Nodup)
    (hnohere : doc.default.lookup "here" = none) :
    ∃ r, parseAux fs (fuel + 1) file visited true = .ok (r, []) ∧
      r.default.lookup "here" = some (if dirname file = "" then "." else dirname file) ∧
      (∀ k, k ≠ "here" → r.default.lookup k = doc.default.lookup k) ∧
      (∀ s k, ¬ (s = "score.init" ∧ k = "_files") →
        ownLookup r s k = ownLookup doc s k) ∧
      ownLookup r "score.init" "_files" =
        some (match docGet (ensureSection (mkSettings file doc) "score.init")
                "score.init" "_files" with
              | some old => old ++ "\n"
              | none => "") := by
  refine ⟨recordFiles (mkSettings file doc) [],
    parseAux_plain fs fuel file visited doc h1 h2 h3, ?_, ?_, ?_, ?_⟩
  · rw [recordFiles_default]
    show ((doc.default.foldl (fun a kv => upsert a kv.1 kv.2)
      [("here", if dirname file = "" then "." else dirname file)]).lookup "here") = _
    rw [lookup_foldl_upsert _ _ _ hnd, hnohere]
    simp [lookup_cons]
  · intro k hk
    rw [recordFiles_default]
    show ((doc.default.foldl (fun a kv => upsert a kv.1 kv.2)
      [("here", if dirname file = "" then "." else dirname file)]).lookup k) = _
    rw [lookup_foldl_upsert _ _ _ hnd]
    rw [lookup_cons, if_neg hk]
    cases doc.default.lookup k <;> simp
  · intro s k h
    rw [recordFiles_ownLookup_ne _ _ _ _ h]
    rfl
  · rw [recordFiles_ownLookup_self]
    cases docGet (ensureSection (mkSettings file doc) "score.init")
        "score.init" "_files" with
    | none => rfl
    | some old =>
        simp only
        rw [show String.intercalate "\n" ([] : List String) = "" from rfl]
        rw [String.append_empty]

/-- **C9, witness** for the amended theorem, on the document
`{DEFAULT: {x: y}, app: {k: v}}` stored at `/d/a.conf`. -/
theorem c9_amended_witness :
    ∃ r, parseAux [("/d/a.conf", ⟨[("x", "y")], [("app", [("k", "v")])]⟩)] 1
        "/d/a.conf" [] true = .ok (r, []) ∧
      r.default.lookup "here" = some "/d" ∧
      r.default.lookup "x" = some "y" ∧
      ownLookup r "app" "k" = some "v" ∧
      ownLookup r "score.init" "_files" = some "" := by
  obtain ⟨r, hrun, hhere, hdef, hown, hfiles⟩ :=
    c9_amended [("/d/a.conf", ⟨[("x", "y")], [("app", [("k", "v")])]⟩)] 0
      "/d/a.conf" [] ⟨[("x", "y")], [("app", [("k", "v")])]⟩
      (by decide) (by decide) (by decide) (by decide) (by decide)
  refine ⟨r, hrun, ?_, ?_, ?_, ?_⟩
  · simpa using hhere
  · simpa using hdef "x" (by decide)
  · simpa using hown "app" "k" (by decide)
  · simpa using hfiles

/-! ## The merge theorem (C5) -/

/-- A found key is among the keys. -/
theorem mem_of_lookup_some {β : Type} (l : List (String × β)) (k : String) (v : β)
    (h : l.lookup k = some v) : k ∈ l.map Prod.fst := by
  induction l with
  | nil => simp at h
  | cons p rest ih =>
      obtain ⟨k0, v0⟩ := p
      rw [lookup_cons] at h
      by_cases hk : k = k0
      · simp [hk]
      · rw [if_neg hk] at h
        simp [ih h]

/-- A present key is found. -/
theorem lookup_isSome_of_mem {β : Type} (l : List (String × β)) (k : String)
    (h : k ∈ l.map Prod.fst) : (l.lookup k).isSome := by
  induction l with
  | nil => simp at h
  | cons p rest ih =>
      obtain ⟨k0, v0⟩ := p
      rw [lookup_cons]
      by_cases hk : k = k0
      · simp [hk]
      · rw [if_neg hk]
        simp only [List.map_cons, List.mem_cons] at h
        exact ih (h.resolve_left hk)

/-- A `configparser` document has duplicate-free section names and
duplicate-free keys in `DEFAULT` and in every section. -/
def wellFormedDoc (o : Doc) : Prop :=
  (o.default.map Prod.fst).Nodup ∧ (o.sections.map Prod.fst).Nodup ∧
    ∀ sec ∈ o.sections, (sec.2.map Prod.fst).Nodup

/-- A successful lookup yields a member pair. -/
theorem lookup_mem {β : Type} (l : List (String × β)) (k : String) (v : β)
    (h : l.lookup k = some v) : (k, v) ∈ l := by
  induction l with
  | nil => simp at h
  | cons p rest ih =>
      obtain ⟨k0, v0⟩ := p
      rw [lookup_cons] at h
      by_cases hk : k = k0
      · rw [if_pos hk] at h
        injection h with h
        subst hk; subst h
        exact List.mem_cons_self _ _
      · rw [if_neg hk] at h
        exact List.mem_cons_of_mem _ (ih h)

/-- The items iterated over for one section have duplicate-free keys. -/
theorem sectionItems_keys_nodup (o : Doc) (s : String) (hwf : wellFormedDoc o) :
    ((sectionItems o s).map Prod.fst).Nodup := by
  unfold sectionItems
  cases hls : lookupSection o s with
  | none => simp
  | some own =>
      have hown : (own.map Prod.fst).Nodup :=
        hwf.2.2 (s, own) (lookup_mem _ _ _ hls)
      simp only [List.map_append, List.map_map]
      apply List.Nodup.append
      · simpa [Function.comp] using hwf.1
      · exact hown.sublist ((List.filter_sublist own).map Prod.fst)
      · intro a ha1 ha2
        simp only [List.mem_map, Function.comp] at ha1 ha2
        obtain ⟨kv1, hkv1, rfl⟩ := ha1
        obtain ⟨kv2, hkv2, heq⟩ := ha2
        have hp := (List.mem_filter.mp hkv2).2
        simp only [decide_eq_true_eq] at hp
        have hmem : kv1.1 ∈ o.default.map Prod.fst := List.mem_map_of_mem _ hkv1
        rw [heq] at hp
        have := lookup_isSome_of_mem o.default kv1.1 hmem
        rw [hp] at this
        simp at this

/-- The inner key loop of `_merge_settings` leaves other sections
untouched. -/
theorem mergeInner_preserve (o : Doc) (secName s k : String)
    (items : List (String × String)) (hns : s ≠ secName) :
    ∀ d : Doc,
      ownLookup (items.foldl
        (fun acc3 kv =>
          if o.default.lookup kv.1 = some kv.2 then acc3
          else setKey acc3 secName kv.1 kv.2) d) s k = ownLookup d s k := by
  induction items with
  | nil => intro d; rfl
  | cons kv rest ih =>
      intro d
      simp only [List.foldl_cons]
      by_cases hskip : o.default.lookup kv.1 = some kv.2
      · rw [if_pos hskip]; exact ih d
      · rw [if_neg hskip, ih]
        exact ownLookup_setKey_ne _ _ _ _ _ _ (fun hc => hns hc.1)

/-- The inner key loop keeps the targeted section present. -/
theorem mergeInner_keeps_section (o : Doc) (secName : String)
    (items : List (String × String)) :
    ∀ d : Doc, (lookupSection d secName).isSome →
      (lookupSection (items.foldl
        (fun acc3 kv =>
          if o.default.lookup kv.1 = some kv.2 then acc3
          else setKey acc3 secName kv.1 kv.2) d) secName).isSome := by
  induction items with
  | nil => intro d h; exact h
  | cons kv rest ih =>
      intro d h
      simp only [List.foldl_cons]
      by_cases hskip : o.default.lookup kv.1 = some kv.2
      · rw [if_pos hskip]; exact ih d h
      · rw [if_neg hskip]
        apply ih
        rw [lookupSection_setKey, if_pos rfl]
        obtain ⟨sec, hsec⟩ := Option.isSome_iff_exists.mp h
        simp [hsec]

/-- Evaluating the inner key loop of `_merge_settings` at the targeted
section: the (unique) item for key `k` wins unless it coincides with
the base's own `DEFAULT` value. -/
theorem mergeInner_eval (o : Doc) (secName k : String)
    (items : List (String × String)) :
    ∀ d : Doc, (lookupSection d secName).isSome →
      ((items.map Prod.fst).Nodup) →
      ownLookup (items.foldl
        (fun acc3 kv =>
          if o.default.lookup kv.1 = some kv.2 then acc3
          else setKey acc3 secName kv.1 kv.2) d) secName k =
        (match items.lookup k with
         | some v =>
             if o.default.lookup k = some v then ownLookup d secName k else some v
         | none => ownLookup d secName k) := by
  induction items with
  | nil => intro d _ _; rfl
  | cons kv rest ih =>
      intro d hsec hnd
      obtain ⟨k0, v0⟩ := kv
      simp only [List.map_cons, List.nodup_cons] at hnd
      simp only [List.foldl_cons]
      by_cases hk : k = k0
      · subst hk
        have hrest : rest.lookup k = none := lookup_eq_none_of_not_mem rest k hnd.1
        rw [lookup_cons, if_pos rfl]
        by_cases hskip : o.default.lookup k = some v0
        · rw [if_pos hskip, ih d hsec hnd.2, hrest]
          simp [hskip]
        · rw [if_neg hskip]
          have hsec' : (lookupSection (setKey d secName k v0) secName).isSome := by
            rw [lookupSection_setKey, if_pos rfl]
            obtain ⟨sec, hs⟩ := Option.isSome_iff_exists.mp hsec
            simp [hs]
          rw [ih _ hsec' hnd.2, hrest]
          simp [hskip, ownLookup_setKey_self d secName k v0 hsec]
      · rw [lookup_cons, if_neg hk]
        by_cases hskip : o.default.lookup k0 = some v0
        · rw [if_pos hskip]
          exact ih d hsec hnd.2
        · rw [if_neg hskip]
          have hsec' : (lookupSection (setKey d secName k0 v0) secName).isSome := by
            rw [lookupSection_setKey, if_pos rfl]
            obtain ⟨sec, hs⟩ := Option.isSome_iff_exists.mp hsec
            simp [hs]
          rw [ih _ hsec' hnd.2]
          have hpres : ownLookup (setKey d secName k0 v0) secName k = ownLookup d secName k :=
            ownLookup_setKey_ne _ _ _ _ _ _ (fun hc => hk hc.2)
          cases hlk : rest.lookup k with
          | none => simp only [hpres]
          | some v => by_cases hd : o.default.lookup k = some v <;> simp [hd, hpres]

/-- The section loop of `_merge_settings`: the base's section for `s`
determines the result at `(s, k)`, later sections leave it alone. -/
theorem mergeOuter_eval (o : Doc) (s k : String) :
    ∀ (secs : List (String × List (String × String))) (d : Doc),
      ((secs.map Prod.fst).Nodup) →
      ((sectionItems o s).map Prod.fst).Nodup →
      ownLookup (secs.foldl
        (fun acc1 sec =>
          (sectionItems o sec.1).foldl
            (fun acc3 kv =>
              if o.default.lookup kv.1 = some kv.2 then acc3
              else setKey acc3 sec.1 kv.1 kv.2) (ensureSection acc1 sec.1)) d) s k =
        (if s ∈ secs.map Prod.fst then
          (match (sectionItems o s).lookup k with
           | some v =>
               if o.default.lookup k = some v then ownLookup d s k else some v
           | none => ownLookup d s k)
        else ownLookup d s k) := by
  intro secs
  induction secs with
  | nil => intro d _ _; simp
  | cons p rest ih =>
      intro d hnd hitems
      obtain ⟨n0, b0⟩ := p
      simp only [List.map_cons, List.nodup_cons] at hnd
      simp only [List.foldl_cons, List.map_cons]
      by_cases hs : s = n0
      · subst hs
        have hnotin : s ∉ rest.map Prod.fst := hnd.1
        have hsec0 : (lookupSection (ensureSection d s) s).isSome := by
          rw [lookupSection_ensure, if_pos rfl]; rfl
        have hinner := mergeInner_eval o s k (sectionItems o s) (ensureSection d s)
          hsec0 hitems
        rw [ih _ hnd.2 hitems, if_neg hnotin, hinner, ownLookup_ensure]
        simp
      · have hpres : ownLookup ((sectionItems o n0).foldl
            (fun acc3 kv =>
              if o.default.lookup kv.1 = some kv.2 then acc3
              else setKey acc3 n0 kv.1 kv.2) (ensureSection d n0)) s k =
            ownLookup d s k := by
          rw [mergeInner_preserve o n0 s k (sectionItems o n0) hs, ownLookup_ensure]
        rw [ih _ hnd.2 hitems, hpres]
        by_cases hm : s ∈ rest.map Prod.fst
        · rw [if_pos hm, if_pos (List.mem_cons_of_mem _ hm)]
        · rw [if_neg hm, if_neg (by simp [hs, hm])]

/-- What one section iteration sees for key `k`: the section's own
value if any, else the inherited `DEFAULT` value. -/
theorem sectionItems_lookup (o : Doc) (s k : String)
    (own : List (String × String)) (h : lookupSection o s = some own) :
    (sectionItems o s).lookup k =
      (match o.default.lookup k with
       | some dv => some ((own.lookup k).getD dv)
       | none => own.lookup k) := by
  unfold sectionItems
  rw [h]
  rw [lookup_append, lookup_map_keyed o.default (fun k1 v1 => (own.lookup k1).getD v1) k]
  rw [lookup_filter_key own (fun k1 => o.default.lookup k1 = none) k]
  cases hd : o.default.lookup k with
  | some dv => simp
  | none => simp

/-- The assignment-vs-skip decision of the merge equals
`effectiveValue`. -/
theorem mergeItem_effective (o : Doc) (s k : String)
    (own : List (String × String)) (h : lookupSection o s = some own)
    (X : Option String) :
    (match (sectionItems o s).lookup k with
     | some v => if o.default.lookup k = some v then X else some v
     | none => X) =
      ((effectiveValue o s k).orElse fun _ => X) := by
  rw [sectionItems_lookup o s k own h]
  unfold effectiveValue
  rw [h]
  cases hd : o.default.lookup k with
  | some dv =>
      cases ho : own.lookup k with
      | some w =>
          by_cases he : dv = w
          · subst he; simp [ho]
          · simp [ho, he, Ne.symm he]
      | none => simp [ho]
  | none =>
      cases ho : own.lookup k with
      | some w => simp [ho]
      | none => simp [ho]

/-- One `_merge_settings` step: the incoming base's effective value
wins over the accumulated result. -/
theorem mergeOne_ownLookup (acc o : Doc) (s k : String) (hwf : wellFormedDoc o) :
    ownLookup (mergeOne acc o) s k =
      ((effectiveValue o s k).orElse fun _ => ownLookup acc s k) := by
  have houter := mergeOuter_eval o s k o.sections acc hwf.2.1
    (sectionItems_keys_nodup o s hwf)
  simp only [mergeOne]
  rw [houter]
  cases hls : lookupSection o s with
  | none =>
      have hnot : s ∉ o.sections.map Prod.fst := by
        intro hmem
        have := lookup_isSome_of_mem o.sections s hmem
        unfold lookupSection at hls
        rw [hls] at this
        simp at this
      rw [if_neg hnot]
      unfold effectiveValue
      rw [hls]
      rfl
  | some own =>
      have hmem : s ∈ o.sections.map Prod.fst :=
        mem_of_lookup_some o.sections s own hls
      rw [if_pos hmem]
      exact mergeItem_effective o s k own hls _

/-- Folding `_merge_settings` over the bases: the last effective value
wins, falling back to the accumulator. -/
theorem mergeSettings_fold (s k : String) :
    ∀ (others : List Doc) (acc : Doc), (∀ o ∈ others, wellFormedDoc o) →
      ownLookup (others.foldl mergeOne acc) s k =
        (((others.filterMap fun o => effectiveValue o s k).getLast?).orElse
          fun _ => ownLookup acc s k) := by
  intro others
  induction others with
  | nil => intro acc _; simp
  | cons o rest ih =>
      intro acc hwf
      simp only [List.foldl_cons, List.filterMap_cons]
      rw [ih _ fun o' ho' => hwf o' (List.mem_cons_of_mem _ ho')]
      rw [mergeOne_ownLookup acc o s k (hwf o (List.mem_cons_self _ _))]
      cases he : effectiveValue o s k with
      | none => rfl
      | some v =>
          cases hr : rest.filterMap fun o' => effectiveValue o' s k with
          | nil => simp
          | cons x xs =>
              have hne : x :: xs ≠ ([] : List String) := by simp
              obtain ⟨g, hg⟩ := Option.ne_none_iff_exists'.mp
                (fun hnone => hne (List.getLast?_eq_none_iff.mp hnone))
              rw [List.getLast?_cons_cons, hg]
              rfl

/-- **C5.**  Merging several resolved bases left-to-right: for every
section/key, the merged value is the value contributed by the *last*
base that mentions it with a value different from that base's own
`DEFAULT` value for the key — later bases win, except that a value
equal to the base's own `DEFAULT` value is not treated as an override
(`effectiveValue` is `none` for such keys, so an earlier base's value
survives). -/
theorem c5_merge_last_wins (others : List Doc) (s k : String)
    (hwf : ∀ o ∈ others, wellFormedDoc o) :
    ownLookup (mergeSettings others) s k =
      (others.filterMap fun o => effectiveValue o s k).getLast? := by
  unfold mergeSettings
  rw [mergeSettings_fold s k others ⟨[], []⟩ hwf]
  have : ownLookup ⟨[], []⟩ s k = none := rfl
  rw [this]
  cases (others.filterMap fun o => effectiveValue o s k).getLast? <;> rfl

/-- **C5, witness**: two bases both setting `sec/k`; the second base's
value equals its own `DEFAULT` value, so the first base's value
survives the merge, while a genuinely overriding key `sec/j` of the
second base wins. -/
theorem c5_merge_last_wins_witness :
    ownLookup (mergeSettings
        [⟨[], [("sec", [("k", "v1"), ("j", "w1")])]⟩,
         ⟨[("k", "v2")], [("sec", [("k", "v2"), ("j", "w2")])]⟩]) "sec" "k" =
        some "v1" ∧
      ownLookup (mergeSettings
        [⟨[], [("sec", [("k", "v1"), ("j", "w1")])]⟩,
         ⟨[("k", "v2")], [("sec", [("k", "v2"), ("j", "w2")])]⟩]) "sec" "j" =
        some "w2" := by
  constructor
  · rw [c5_merge_last_wins _ "sec" "k" (by
      intro o ho
      simp only [List.mem_cons, List.mem_singleton] at ho
      rcases ho with rfl | rfl | h
      · exact ⟨by decide, by decide, by decide⟩
      · exact ⟨by decide, by decide, by decide⟩
      · cases h)]
    decide
  · rw [c5_merge_last_wins _ "sec" "j" (by
      intro o ho
      simp only [List.mem_cons, List.mem_singleton] at ho
      rcases ho with rfl | rfl | h
      · exact ⟨by decide, by decide, by decide⟩
      · exact ⟨by decide, by decide, by decide⟩
      · cases h)]
    decide

/-! ## Optional-dependency pruning (C6) -/

/-- The recorded pair survives `addMissing`. -/
theorem addMissing_pres (m : List (String × List String)) (d' al' dep al : String)
    (h : ∃ e ∈ m, e.1 = dep ∧ al ∈ e.2) :
    ∃ e ∈ addMissing m d' al', e.1 = dep ∧ al ∈ e.2 := by
  induction m with
  | nil => exact absurd h (by simp)
  | cons e rest ih =>
      obtain ⟨d0, as0⟩ := e
      obtain ⟨e0, he0, hfst, hmem⟩ := h
      unfold addMissing
      by_cases hd : d0 = d'
      · rw [if_pos hd]
        rcases List.mem_cons.mp he0 with heq | htail
        · subst heq
          exact ⟨(d0, as0 ++ [al']), List.mem_cons_self _ _, hfst,
            List.mem_append_left _ hmem⟩
        · exact ⟨e0, List.mem_cons_of_mem _ htail, hfst, hmem⟩
      · rw [if_neg hd]
        rcases List.mem_cons.mp he0 with heq | htail
        · subst heq
          exact ⟨(d0, as0), List.mem_cons_self _ _, hfst, hmem⟩
        · obtain ⟨e1, he1, h1, h2⟩ := ih ⟨e0, htail, hfst, hmem⟩
          exact ⟨e1, List.mem_cons_of_mem _ he1, h1, h2⟩

/-- `addMissing` records its own pair. -/
theorem addMissing_self (m : List (String × List String)) (dep al : String) :
    ∃ e ∈ addMissing m dep al, e.1 = dep ∧ al ∈ e.2 := by
  induction m with
  | nil => exact ⟨(dep, [al]), by simp [addMissing], rfl, by simp⟩
  | cons e rest ih =>
      obtain ⟨d0, as0⟩ := e
      unfold addMissing
      by_cases hd : d0 = dep
      · rw [if_pos hd]
        exact ⟨(d0, as0 ++ [al]), List.mem_cons_self _ _, hd, by simp⟩
      · rw [if_neg hd]
        obtain ⟨e1, he1, h1, h2⟩ := ih
        exact ⟨e1, List.mem_cons_of_mem _ he1, h1, h2⟩

/-- The dependency names kept by the per-alias walk: exactly those whose
redirected target is a known module (optional or not). -/
theorem pruneDeps_kept (modules : List String)
    (aliases : List (String × List (String × String))) (a : String) :
    ∀ (deps : List (String × Bool)) (missing : List (String × List String)),
      (pruneDeps modules aliases a deps missing).1 =
        (deps.filter fun p => redirectOf aliases a p.1 ∈ modules).map Prod.fst := by
  intro deps
  induction deps with
  | nil => intro missing; rfl
  | cons p rest ih =>
      intro missing
      obtain ⟨dep, opt⟩ := p
      unfold pruneDeps
      by_cases hmem : redirectOf aliases a dep ∈ modules
      · simp only [if_pos hmem]
        simp [List.filter, hmem, ih missing]
      · simp only [if_neg hmem]
        by_cases hopt : opt
        · simp only [hopt, if_pos rfl]
          simp [List.filter, hmem, ih missing]
        · simp only [Bool.not_eq_true] at hopt
          simp only [hopt, Bool.false_eq_true, if_false]
          simp [List.filter, hmem, ih]

/-- When every required dependency's target is present, the per-alias
walk records nothing. -/
theorem pruneDeps_nomiss (modules : List String)
    (aliases : List (String × List (String × String))) (a : String) :
    ∀ (deps : List (String × Bool)) (missing : List (String × List String)),
      (∀ p ∈ deps, p.2 = false → redirectOf aliases a p.1 ∈ modules) →
      (pruneDeps modules aliases a deps missing).2 = missing := by
  intro deps
  induction deps with
  | nil => intro missing _; rfl
  | cons p rest ih =>
      intro missing hall
      obtain ⟨dep, opt⟩ := p
      unfold pruneDeps
      by_cases hmem : redirectOf aliases a dep ∈ modules
      · simp only [if_pos hmem]
        exact ih missing fun q hq => hall q (List.mem_cons_of_mem _ hq)
      · simp only [if_neg hmem]
        have hopt : opt = true := by
          by_contra hc
          exact hmem (hall (dep, opt) (List.mem_cons_self _ _)
            (by simpa using hc))
        simp only [hopt, if_pos rfl]
        exact ih missing fun q hq => hall q (List.mem_cons_of_mem _ hq)

/-- A recorded pair survives the rest of the per-alias walk. -/
theorem pruneDeps_pres (modules : List String)
    (aliases : List (String × List (String × String))) (a' : String) :
    ∀ (deps : List (String × Bool)) (missing : List (String × List String))
      (dep al : String),
      (∃ e ∈ missing, e.1 = dep ∧ al ∈ e.2) →
      ∃ e ∈ (pruneDeps modules aliases a' deps missing).2, e.1 = dep ∧ al ∈ e.2 := by
  intro deps
  induction deps with
  | nil => intro missing dep al h; exact h
  | cons p rest ih =>
      intro missing dep al h
      obtain ⟨d0, opt⟩ := p
      unfold pruneDeps
      by_cases hmem : redirectOf aliases a' d0 ∈ modules
      · simp only [if_pos hmem]
        exact ih missing dep al h
      · simp only [if_neg hmem]
        by_cases hopt : opt
        · simp only [hopt, if_pos rfl]
          exact ih missing dep al h
        · simp only [Bool.not_eq_true] at hopt
          simp only [hopt, Bool.false_eq_true, if_false]
          exact ih _ dep al (addMissing_pres missing d0 a' dep al h)

/-- A missing required dependency of the walked alias gets recorded with
that alias as dependant. -/
theorem pruneDeps_records (modules : List String)
    (aliases : List (String × List (String × String))) (a : String) :
    ∀ (deps : List (String × Bool)) (missing : List (String × List String))
      (dep : String),
      (dep, false) ∈ deps → redirectOf aliases a dep ∉ modules →
      ∃ e ∈ (pruneDeps modules aliases a deps missing).2, e.1 = dep ∧ a ∈ e.2 := by
  intro deps
  induction deps with
  | nil => intro missing dep h; simp at h
  | cons p rest ih =>
      intro missing dep hmem hnot
      obtain ⟨d0, opt⟩ := p
      rcases List.mem_cons.mp hmem with heq | htail
      · injection heq with h1 h2
        subst h1
        unfold pruneDeps
        rw [if_neg hnot]
        subst h2
        simp only [Bool.false_eq_true, if_false]
        exact pruneDeps_pres modules aliases a rest _ dep a
          (addMissing_self missing dep a)
      · unfold pruneDeps
        by_cases hm0 : redirectOf aliases a d0 ∈ modules
        · simp only [if_pos hm0]
          exact ih missing dep htail hnot
        · simp only [if_neg hm0]
          by_cases hopt : opt
          · simp only [hopt, if_pos rfl]
            exact ih missing dep htail hnot
          · simp only [Bool.not_eq_true] at hopt
            simp only [hopt, Bool.false_eq_true, if_false]
            exact ih _ dep htail hnot

/-- The collected per-alias results of
`_remove_missing_optional_dependencies`'s main loop. -/
theorem removeMissing_fold_kept (modules : List String)
    (aliases : List (String × List (String × String))) :
    ∀ (dmap : List (String × List (String × Bool)))
      (acc : List (String × List String) × List (String × List String)),
      (dmap.foldl
        (fun (acc : List (String × List String) × List (String × List String)) e =>
          let pr := pruneDeps modules aliases e.1 e.2 acc.2
          (acc.1 ++ [(e.1, pr.1)], pr.2)) acc).1 =
        acc.1 ++ dmap.map (fun e =>
          (e.1, (e.2.filter fun p => redirectOf aliases e.1 p.1 ∈ modules).map
            Prod.fst)) := by
  intro dmap
  induction dmap with
  | nil => intro acc; simp
  | cons e rest ih =>
      intro acc
      simp only [List.foldl_cons, List.map_cons]
      rw [ih]
      simp [pruneDeps_kept]

/-- With no missing required dependency anywhere, the loop records
nothing. -/
theorem removeMissing_fold_nomiss (modules : List String)
    (aliases : List (String × List (String × String))) :
    ∀ (dmap : List (String × List (String × Bool)))
      (acc : List (String × List String) × List (String × List String)),
      (∀ e ∈ dmap, ∀ p ∈ e.2, p.2 = false → redirectOf aliases e.1 p.1 ∈ modules) →
      (dmap.foldl
        (fun (acc : List (String × List String) × List (String × List String)) e =>
          let pr := pruneDeps modules aliases e.1 e.2 acc.2
          (acc.1 ++ [(e.1, pr.1)], pr.2)) acc).2 = acc.2 := by
  intro dmap
  induction dmap with
  | nil => intro acc _; rfl
  | cons e rest ih =>
      intro acc hall
      simp only [List.foldl_cons]
      rw [ih]
      · simp only
        exact pruneDeps_nomiss modules aliases e.1 e.2 acc.2
          (hall e (List.mem_cons_self _ _))
      · exact fun e' he' => hall e' (List.mem_cons_of_mem _ he')

/-- A recorded pair survives the rest of the loop. -/
theorem removeMissing_fold_pres (modules : List String)
    (aliases : List (String × List (String × String))) :
    ∀ (dmap : List (String × List (String × Bool)))
      (acc : List (String × List String) × List (String × List String))
      (dep al : String),
      (∃ q ∈ acc.2, q.1 = dep ∧ al ∈ q.2) →
      ∃ q ∈ (dmap.foldl
        (fun (acc : List (String × List String) × List (String × List String)) e =>
          let pr := pruneDeps modules aliases e.1 e.2 acc.2
          (acc.1 ++ [(e.1, pr.1)], pr.2)) acc).2, q.1 = dep ∧ al ∈ q.2 := by
  intro dmap
  induction dmap with
  | nil => intro acc dep al h; exact h
  | cons e rest ih =>
      intro acc dep al h
      simp only [List.foldl_cons]
      exact ih _ dep al (pruneDeps_pres modules aliases e.1 e.2 acc.2 dep al h)

/-- Every missing required dependency ends up recorded together with
its dependant. -/
theorem removeMissing_fold_records (modules : List String)
    (aliases : List (String × List (String × String))) :
    ∀ (dmap : List (String × List (String × Bool)))
      (acc : List (String × List String) × List (String × List String))
      (a : String) (deps : List (String × Bool)) (dep : String),
      (a, deps) ∈ dmap → (dep, false) ∈ deps → redirectOf aliases a dep ∉ modules →
      ∃ q ∈ (dmap.foldl
        (fun (acc : List (String × List String) × List (String × List String)) e =>
          let pr := pruneDeps modules aliases e.1 e.2 acc.2
          (acc.1 ++ [(e.1, pr.1)], pr.2)) acc).2, q.1 = dep ∧ a ∈ q.2 := by
  intro dmap
  induction dmap with
  | nil => intro acc a deps dep h; simp at h
  | cons e rest ih =>
      intro acc a deps dep hmem hdep hnot
      simp only [List.foldl_cons]
      rcases List.mem_cons.mp hmem with heq | htail
      · subst heq
        exact removeMissing_fold_pres modules aliases rest _ dep a
          (pruneDeps_records modules aliases a deps acc.2 dep hdep hnot)
      · exact ih _ a deps dep htail hdep hnot

/-- **C6.**  During dependency collection every declared dependency is
resolved through the consuming alias's redirect map and checked against
the module set: (i) collection succeeds exactly when every *required*
dependency's target exists — a missing optional dependency never causes
an error; (ii) on success the map handed to sorting keeps precisely the
dependency names whose target exists, so every remaining edge's target
module exists; (iii) on failure the raised `ConfigurationError` records
every missing required dependency together with the dependant alias
that needed it. -/
theorem c6_optional_pruning (modules : List String)
    (dmap : List (String × List (String × Bool)))
    (aliases : List (String × List (String × String))) :
    ((∃ out, removeMissing modules dmap aliases = .ok out) ↔
      (∀ e ∈ dmap, ∀ p ∈ e.2, p.2 = false → redirectOf aliases e.1 p.1 ∈ modules)) ∧
    (∀ out, removeMissing modules dmap aliases = .ok out →
      out = dmap.map (fun e =>
        (e.1, (e.2.filter fun p => redirectOf aliases e.1 p.1 ∈ modules).map
          Prod.fst)) ∧
      (∀ e ∈ out, ∀ d ∈ e.2, redirectOf aliases e.1 d ∈ modules)) ∧
    (∀ missing, removeMissing modules dmap aliases = .error missing →
      ∀ e ∈ dmap, ∀ p ∈ e.2, p.2 = false → redirectOf aliases e.1 p.1 ∉ modules →
        ∃ q ∈ missing, q.1 = p.1 ∧ e.1 ∈ q.2) := by
  have hkept := removeMissing_fold_kept modules aliases dmap ([], [])
  refine ⟨⟨?_, ?_⟩, ?_, ?_⟩
  · rintro ⟨out, hout⟩
    by_contra hc
    push_neg at hc
    obtain ⟨e, he, p, hp, hreq, hnot⟩ := hc
    have hrec := removeMissing_fold_records modules aliases dmap ([], [])
      e.1 e.2 p.1 (by simpa using he) (by
        have : p = (p.1, false) := by
          obtain ⟨p1, p2⟩ := p
          simp at hreq
          simp [hreq]
        rw [← this]
        exact hp) hnot
    obtain ⟨q, hq, -, -⟩ := hrec
    simp only [removeMissing] at hout
    split at hout
    · rename_i hnil
      rw [hnil] at hq
      simp at hq
    · exact absurd hout (by simp)
  · intro hall
    have hnil := removeMissing_fold_nomiss modules aliases dmap ([], []) hall
    simp only [removeMissing]
    rw [if_pos hnil]
    exact ⟨_, rfl⟩
  · intro out hout
    simp only [removeMissing] at hout
    split at hout
    · injection hout with hout
      subst hout
      constructor
      · simpa using hkept
      · intro e he d hd
        rw [hkept] at he
        simp only [List.nil_append, List.mem_map] at he
        obtain ⟨e0, he0, rfl⟩ := he
        simp only [List.mem_map] at hd
        obtain ⟨p, hp, rfl⟩ := hd
        exact (List.mem_filter.mp hp).2 |> fun h => by simpa using h
    · exact absurd hout (by simp)
  · intro missing hmiss e he p hp hreq hnot
    simp only [removeMissing] at hmiss
    split at hmiss
    · exact absurd hmiss (by simp)
    · injection hmiss with hmiss
      subst hmiss
      have : p = (p.1, false) := by
        obtain ⟨p1, p2⟩ := p
        simp at hreq
        simp [hreq]
      exact removeMissing_fold_records modules aliases dmap ([], [])
        e.1 e.2 p.1 (by simpa using he) (this ▸ hp) hnot

/-- **C6, witness**: one alias with a missing optional dependency and a
present required one succeeds with the optional edge dropped; a missing
required dependency raises the structured error naming it and its
dependant. -/
theorem c6_optional_pruning_witness :
    removeMissing ["a", "b"] [("a", [("b", false), ("ghost", true)])] [] =
        .ok [("a", ["b"])] ∧
      ∃ q ∈ ([("ghost", ["a"])] : List (String × List String)),
        q.1 = "ghost" ∧ "a" ∈ q.2 := by
  constructor
  · have h := (c6_optional_pruning ["a", "b"]
      [("a", [("b", false), ("ghost", true)])] []).2.1
    have hok : ∃ out, removeMissing ["a", "b"]
        [("a", [("b", false), ("ghost", true)])] [] = .ok out :=
      (c6_optional_pruning ["a", "b"]
        [("a", [("b", false), ("ghost", true)])] []).1.mpr (by decide)
    obtain ⟨out, hout⟩ := hok
    have := (h out hout).1
    rw [hout, this]
    decide
  · have h := (c6_optional_pruning ["a"]
      [("a", [("ghost", false)])] []).2.2 [("ghost", ["a"])] (by decide)
    exact h ("a", [("ghost", false)]) (by decide) ("ghost", false) (by decide)
      rfl (by decide)

/-! ## The cycle guard of `_parse_bases` (C3) -/

/-- If some base on the `based_on` list revisits the active stack and
every base before it parses successfully (without revisiting), the
bases loop raises the configuration-loop error carrying the whole
active stack. -/
theorem basesLoop_revisit (p : String → Except Err (Doc × List Warn))
    (here : String) (visited : List String) (b : String) (post : List String)
    (hb : resolveBase here b ∈ visited) :
    ∀ (pre : List String) (files : List String) (bases : List Doc),
      (∀ b' ∈ pre, resolveBase here b' ∉ visited ∧
        ∃ r, p (resolveBase here b') = .ok r) →
      basesLoop p here visited (pre ++ b :: post) files bases =
        .error (.configLoop visited) := by
  intro pre
  induction pre with
  | nil =>
      intro files bases _
      simp only [List.nil_append, basesLoop]
      rw [if_pos hb]
  | cons b0 rest ih =>
      intro files bases hpre
      obtain ⟨hnot, ⟨r, hr⟩⟩ := hpre b0 (List.mem_cons_self _ _)
      obtain ⟨doc, w⟩ := r
      simp only [List.cons_append, basesLoop]
      rw [if_neg hnot, hr, exceptBind_ok]
      simp only [List.append_eq]
      rw [ih (files ++ [resolveBase here b0]) (bases ++ [doc])
        (fun b' hb' => hpre b' (List.mem_cons_of_mem _ hb'))]
      rfl

/-- **C3.**  When a configuration file's `based_on` chain revisits a
path already on the active resolution stack — some base resolves to a
member of the stack while every base listed before it resolves cleanly —
`_parse` raises the fatal `ConfigurationError` whose payload is the
entire active stack of absolute paths (so its message, rendered by
`errMessage`, names every path of the cycle), and no result document is
produced. -/
theorem c3_cycle_detection (fs : FS) (fuel : Nat) (file : String)
    (visited : List String) (doc : Doc) (basesString : String)
    (pre post : List String) (b : String)
    (h1 : fs.lookup file = some doc)
    (h2 : docGet (mkSettings file doc) "score.init" "based_on" = some basesString)
    (h3 : parseList basesString = pre ++ b :: post)
    (hb : resolveBase (((mkSettings file doc).default.lookup "here").getD "") b ∈
      visited ++ [abspath file])
    (hpre : ∀ b' ∈ pre,
      resolveBase (((mkSettings file doc).default.lookup "here").getD "") b' ∉
          visited ++ [abspath file] ∧
        ∃ r, parseAux fs fuel
          (resolveBase (((mkSettings file doc).default.lookup "here").getD "") b')
          (visited ++ [abspath file]) true = .ok r) :
    parseAux fs (fuel + 1) file visited true =
        .error (.configLoop (visited ++ [abspath file])) ∧
      resolveBase (((mkSettings file doc).default.lookup "here").getD "") b ∈
        visited ++ [abspath file] := by
  refine ⟨?_, hb⟩
  have hloop := basesLoop_revisit
    (fun bb => parseAux fs fuel bb (visited ++ [abspath file]) true)
    (((mkSettings file doc).default.lookup "here").getD "")
    (visited ++ [abspath file]) b post hb pre [abspath file] [] hpre
  simp only [parseAux, h1, h2]
  rw [h3, hloop]
  rfl

/-- **C3, witness**: a file based on itself is rejected with the loop
error naming it. -/
theorem c3_cycle_detection_witness :
    parseAux [("/a.conf", ⟨[], [("score.init", [("based_on", "/a.conf")])]⟩)] 1
        "/a.conf" [] true = .error (.configLoop ["/a.conf"]) ∧
      "/a.conf" ∈ ["/a.conf"] := by
  have h := c3_cycle_detection
    [("/a.conf", ⟨[], [("score.init", [("based_on", "/a.conf")])]⟩)] 0
    "/a.conf" [] ⟨[], [("score.init", [("based_on", "/a.conf")])]⟩ "/a.conf"
    [] [] "/a.conf" (by decide) (by decide) (by decide) (by decide)
    (by intro b' hb'; exact absurd hb' (by simp))
  refine ⟨?_, by simp⟩
  have := h.1
  simpa using this

/-! ## Multiplicities in `solve()`'s output (C10) -/

/-- Closed form of the first phase of `solve()`. -/
theorem phase1_spec (m : DepMap) :
    ∀ (rest : DepMap) (s : List String) (d : DepMap),
      phase1 m rest (s, d) =
        (s ++ rest.flatMap (fun e =>
            if e.2 = [] then [e.1] else e.2.filter fun x => ¬ isKeyOf m x),
          d ++ rest.filter fun e => ¬ e.2 = []) := by
  intro rest
  induction rest with
  | nil => intro s d; simp [phase1]
  | cons e tail ih =>
      intro s d
      obtain ⟨k, ds⟩ := e
      unfold phase1
      by_cases hds : ds = []
      · rw [if_pos hds, ih]
        simp [hds, List.filter]
      · rw [if_neg hds, ih]
        simp [hds, List.filter]

/-- Every pass permutes the output plus the remaining keys. -/
theorem passOnce_perm :
    ∀ (d : DepMap) (s : List String),
      ((passOnce s d).2.1 ++ (passOnce s d).2.2.map Prod.fst).Perm
        (s ++ d.map Prod.fst) := by
  intro d
  induction d with
  | nil => intro s; simp [passOnce]
  | cons e rest ih =>
      intro s
      obtain ⟨k, ds⟩ := e
      simp only [passOnce]
      split
      · simp only [List.map_cons]
        have h1 : ((passOnce s rest).2.1 ++
            k :: (passOnce s rest).2.2.map Prod.fst).Perm
            (k :: ((passOnce s rest).2.1 ++ (passOnce s rest).2.2.map Prod.fst)) :=
          List.perm_middle
        refine h1.trans ?_
        refine ((ih s).cons k).trans ?_
        exact List.perm_middle.symm
      · split
        · simp only [List.map_cons]
          refine (ih (s ++ [k])).trans ?_
          rw [List.append_assoc]
          simp
        · simp only [List.map_cons]
          have h1 : ((passOnce s rest).2.1 ++
              k :: (passOnce s rest).2.2.map Prod.fst).Perm
              (k :: ((passOnce s rest).2.1 ++ (passOnce s rest).2.2.map Prod.fst)) :=
            List.perm_middle
          refine h1.trans ?_
          refine ((ih s).cons k).trans ?_
          exact List.perm_middle.symm

/-- The whole `while updated` loop permutes the output plus the
remaining keys. -/
theorem whileLoop_perm :
    ∀ (fuel : Nat) (s : List String) (d : DepMap),
      ((whileLoop fuel s d).1 ++ (whileLoop fuel s d).2.map Prod.fst).Perm
        (s ++ d.map Prod.fst) := by
  intro fuel
  induction fuel with
  | zero => intro s d; simp [whileLoop]
  | succ fuel ih =>
      intro s d
      simp only [whileLoop]
      cases hp : passOnce s d with
      | mk u rest =>
          obtain ⟨s', d'⟩ := rest
          have hperm := passOnce_perm d s
          rw [hp] at hperm
          cases u
          · simpa using hperm
          · simp only
            exact (ih s' d').trans hperm

/-- Counting a *key* of the mapping across phase 1's output and the
working map's keys: exactly its multiplicity among the mapping's
keys. -/
theorem phase1_count_key (m : DepMap) (k : String) (hkey : isKeyOf m k = true) :
    ∀ l : DepMap,
      (l.flatMap fun e =>
          if e.2 = [] then [e.1] else e.2.filter fun x => ¬ isKeyOf m x).count k +
        ((l.filter fun e => ¬ e.2 = []).map Prod.fst).count k =
      (l.map Prod.fst).count k := by
  intro l
  induction l with
  | nil => simp
  | cons e rest ih =>
      obtain ⟨k0, ds⟩ := e
      have hzero : (ds.filter fun x => ¬ isKeyOf m x).count k = 0 :=
        List.count_eq_zero_of_not_mem fun hmem => by
          have h2 := (List.mem_filter.mp hmem).2
          simp [hkey] at h2
      by_cases hds : ds = []
      · subst hds
        rw [List.flatMap_cons, List.filter_cons]
        rw [if_pos (rfl : ([] : List String) = [])]
        rw [if_neg (show ¬ (decide ¬([] : List String) = []) = true by simp)]
        simp only [List.count_append, List.count_cons, List.map_cons, List.count_nil]
        omega
      · rw [List.flatMap_cons, List.filter_cons]
        rw [if_neg hds]
        rw [if_pos (show (decide ¬ ds = []) = true by simp [hds])]
        simp only [List.count_append, List.count_cons, List.map_cons]
        rw [hzero]
        omega

/-- `isKeyOf` is membership among the keys. -/
theorem isKeyOf_iff_mem (m : DepMap) (x : String) :
    isKeyOf m x = true ↔ x ∈ m.map Prod.fst := by
  unfold isKeyOf
  exact List.elem_iff

/-- Counting a *non-key* across phase 1's output and the working map's
keys: once per mapping entry whose dependency set mentions it. -/
theorem phase1_count_nonkey (m : DepMap) (d : String) (hnk : isKeyOf m d = false) :
    ∀ l : DepMap, (∀ e ∈ l, e.1 ∈ m.map Prod.fst ∧ e.2.Nodup) →
      (l.flatMap fun e =>
          if e.2 = [] then [e.1] else e.2.filter fun x => ¬ isKeyOf m x).count d +
        ((l.filter fun e => ¬ e.2 = []).map Prod.fst).count d =
      (l.filter fun e => d ∈ e.2).length := by
  intro l
  induction l with
  | nil => intro _; simp
  | cons e rest ih =>
      intro hl
      obtain ⟨k0, ds⟩ := e
      have hk0 : k0 ≠ d := by
        intro hc
        have hmem := (hl (k0, ds) (List.mem_cons_self _ _)).1
        rw [hc] at hmem
        rw [(isKeyOf_iff_mem m d).mpr hmem] at hnk
        exact absurd hnk (by simp)
      have ihr := ih fun e' he' => hl e' (List.mem_cons_of_mem _ he')
      have hdnodup : ds.Nodup := (hl (k0, ds) (List.mem_cons_self _ _)).2
      by_cases hds : ds = []
      · subst hds
        rw [List.flatMap_cons, List.filter_cons, List.filter_cons]
        rw [if_pos (rfl : ([] : List String) = [])]
        rw [if_neg (show ¬ (decide ¬([] : List String) = []) = true by simp)]
        rw [if_neg (show ¬ (decide (d ∈ ([] : List String))) = true by simp)]
        simp only [List.count_append, List.count_cons, List.count_nil]
        have : (k0 == d) = false := by simp [hk0]
        rw [this]
        simpa using ihr
      · rw [List.flatMap_cons, List.filter_cons, List.filter_cons]
        rw [if_neg hds]
        rw [if_pos (show (decide ¬ ds = []) = true by simp [hds])]
        have hcf : (ds.filter fun x => ¬ isKeyOf m x).count d = ds.count d :=
          List.count_filter (by simp [hnk])
        by_cases hd : d ∈ ds
        · rw [if_pos (show (decide (d ∈ ds)) = true by simp [hd])]
          simp only [List.count_append, List.count_cons, List.map_cons, List.length_cons]
          rw [hcf, List.count_eq_one_of_mem hdnodup hd]
          have : (k0 == d) = false := by simp [hk0]
          rw [this]
          simp only [Bool.false_eq_true, if_false]
          omega
        · rw [if_neg (show ¬ (decide (d ∈ ds)) = true by simp [hd])]
          simp only [List.count_append, List.count_cons, List.map_cons]
          rw [hcf, List.count_eq_zero_of_not_mem hd]
          have : (k0 == d) = false := by simp [hk0]
          rw [this]
          simp only [Bool.false_eq_true, if_false]
          omega

/-- **C10, counterexample.**  On the cycle-free mapping
`{a: {c}, b: {c}}` (where `c` is never a key), `solve` returns
`[c, c, a, b]`: the alias `c` appears twice — once per referencing
node — not exactly once as the claim states. -/
theorem c10_counterexample :
    dsSolve [("a", ["c"]), ("b", ["c"])] = .ok ["c", "c", "a", "b"] ∧
      List.count "c" ["c", "c", "a", "b"] = 2 := by
  decide

/-- **C10, amended.**  When `solve` succeeds, every alias that occurs
as a *key* of the dependency mapping appears exactly once in the
returned sequence, but an alias that appears only as a dependency and
never as a key is appended once *per referencing key* (its multiplicity
is the number of entries whose dependency set mentions it), so it can
appear several times. -/
theorem c10_amended (m : DepMap) (out : List String)
    (hk : (m.map Prod.fst).Nodup) (hds : ∀ e ∈ m, e.2.Nodup)
    (h : dsSolve m = .ok out) :
    (∀ k, isKeyOf m k = true → out.count k = 1) ∧
      (∀ d, isKeyOf m d = false →
        out.count d = (m.filter fun e => d ∈ e.2).length) := by
  simp only [dsSolve] at h
  split at h
  case h_2 => split at h <;> exact Except.noConfusion h
  case h_1 heq =>
      injection h with hout
      subst hout
      have hperm := whileLoop_perm (totalSize (phase1 m m ([], [])).2 + 1)
        (phase1 m m ([], [])).1 (phase1 m m ([], [])).2
      rw [heq] at hperm
      rw [phase1_spec m m [] []] at hperm ⊢
      simp only [List.map_nil, List.append_nil, List.nil_append] at hperm ⊢
      constructor
      · intro k hkey
        have hc := hperm.count_eq k
        rw [List.count_append, phase1_count_key m k hkey m] at hc
        rw [hc]
        exact List.count_eq_one_of_mem hk ((isKeyOf_iff_mem m k).mp hkey)
      · intro d hnk
        have hc := hperm.count_eq d
        rw [List.count_append,
          phase1_count_nonkey m d hnk m
            (fun e he => ⟨List.mem_map_of_mem _ he, hds e he⟩)] at hc
        exact hc

/-- **C10, witness** for the amended theorem on `{a: {b}, b: {c}}`:
the key `a` appears once and the non-key `c` appears once (one
referencing entry). -/
theorem c10_amended_witness :
    List.count "a" ["c", "b", "a"] = 1 ∧ List.count "c" ["c", "b", "a"] = 1 := by
  have h := c10_amended [("a", ["b"]), ("b", ["c"])] ["c", "b", "a"]
    (by decide) (by decide) (by decide)
  refine ⟨h.1 "a" (by decide), ?_⟩
  rw [h.2 "c" (by decide)]
  decide

/-! ### C4 — cycle reporting of `DependencySolver.solve` -/

/-- **C4, counterexample.**  On the mapping `{a: {b}, b: {c}, c: {b}}`
(whose only cycle is `b → c → b`), `solve` raises `DependencyLoop`
with the list `[a, b, c, b]`: the walk starts at the arbitrary stuck
alias `a`, so the reported sequence does *not* start and end on the
repeated node (`a ≠ b`). -/
theorem c4_counterexample :
    dsSolve [("a", ["b"]), ("b", ["c"]), ("c", ["b"])] =
      .error ["a", "b", "c", "b"] ∧
    (["a", "b", "c", "b"] : List String).head? ≠
      (["a", "b", "c", "b"] : List String).getLast? := by
  decide

/-- `(l ++ [a]).getLast? = some a`. -/
theorem getLast?_app1 {α : Type} (l : List α) (a : α) :
    (l ++ [a]).getLast? = some a := by
  rw [List.getLast?_concat]

/-- `(l ++ [a]).dropLast = l`. -/
theorem dropLast_app1 {α : Type} (l : List α) (a : α) :
    (l ++ [a]).dropLast = l := by
  rw [List.dropLast_concat]

/-- With duplicate-free keys, an alias determines its entry. -/
theorem entry_unique {β : Type} (l : List (String × β))
    (h : (l.map Prod.fst).Nodup) (k : String) (a b : β)
    (ha : (k, a) ∈ l) (hb : (k, b) ∈ l) : a = b := by
  induction l with
  | nil => simp at ha
  | cons e rest ih =>
      obtain ⟨k0, v0⟩ := e
      simp only [List.map_cons, List.nodup_cons] at h
      rcases List.mem_cons.mp ha with h1 | h1
      · rcases List.mem_cons.mp hb with h2 | h2
        · injection h1 with h1k h1v
          injection h2 with h2k h2v
          rw [h1v, h2v]
        · injection h1 with h1k h1v
          subst h1k
          exact absurd (List.mem_map_of_mem Prod.fst h2) h.1
      · rcases List.mem_cons.mp hb with h2 | h2
        · injection h2 with h2k h2v
          subst h2k
          exact absurd (List.mem_map_of_mem Prod.fst h1) h.1
        · exact ih h.2 h1 h2

/-- The keys of the working map after one pass form a subsequence of
the keys before it. -/
theorem passOnce_keys (sorted_ : List String) (d : DepMap) :
    ((passOnce sorted_ d).2.2.map Prod.fst).Sublist (d.map Prod.fst) := by
  induction d generalizing sorted_ with
  | nil => simp [passOnce]
  | cons p rest ih =>
      obtain ⟨k, ds⟩ := p
      simp only [passOnce]
      split
      · simpa using (ih sorted_).cons₂ k
      · split
        · simpa using (ih (sorted_ ++ [k])).cons k
        · simpa using (ih sorted_).cons₂ k

/-- One pass only extends the output list. -/
theorem passOnce_sorted_pre (sorted_ : List String) (d : DepMap) :
    sorted_ <+: (passOnce sorted_ d).2.1 := by
  induction d generalizing sorted_ with
  | nil => simp [passOnce]
  | cons p rest ih =>
      obtain ⟨k, ds⟩ := p
      simp only [passOnce]
      split
      · exact ih sorted_
      · split
        · exact (List.prefix_append sorted_ [k]).trans (ih (sorted_ ++ [k]))
        · exact ih sorted_

/-- A pass that reports no progress found every remaining dependency
set disjoint from the output. -/
theorem passOnce_false_inter (sorted_ : List String) (d : DepMap)
    (h : (passOnce sorted_ d).1 = false) :
    ∀ e ∈ d, e.2.filter (fun x => x ∈ sorted_) = [] := by
  induction d generalizing sorted_ with
  | nil => simp
  | cons p rest ih =>
      obtain ⟨k, ds⟩ := p
      simp only [passOnce] at h
      split at h
      · rename_i hflt
        intro e he
        rcases List.mem_cons.mp he with rfl | hm
        · exact hflt
        · exact ih sorted_ h e hm
      · split at h
        · simp at h
        · simp at h

/-- One pass keeps every remaining dependency set nonempty. -/
theorem passOnce_nonempty (sorted_ : List String) (d : DepMap)
    (h : ∀ e ∈ d, e.2 ≠ []) :
    ∀ e ∈ (passOnce sorted_ d).2.2, e.2 ≠ [] := by
  induction d generalizing sorted_ with
  | nil => simp [passOnce]
  | cons p rest ih =>
      obtain ⟨k, ds⟩ := p
      simp only [passOnce]
      split
      · intro e he
        rcases List.mem_cons.mp he with rfl | hm
        · exact h (k, ds) (List.mem_cons_self _ _)
        · exact ih sorted_ (fun e' he' => h e' (List.mem_cons_of_mem _ he')) e hm
      · split
        · rename_i hflt hall
          exact ih (sorted_ ++ [k]) (fun e' he' => h e' (List.mem_cons_of_mem _ he'))
        · rename_i hflt hall
          intro e he
          rcases List.mem_cons.mp he with rfl | hm
          · intro hcontra
            apply hall
            rw [List.all_eq_true]
            intro y hy
            by_contra hys
            have hc2 : ds.filter (fun x => x ∉ sorted_) = [] := hcontra
            have : y ∈ ds.filter (fun x => x ∉ sorted_) := by
              rw [List.mem_filter]
              exact ⟨hy, by simpa using hys⟩
            rw [hc2] at this
            simp at this
          · exact ih sorted_ (fun e' he' => h e' (List.mem_cons_of_mem _ he')) e hm

/-- One pass only shrinks dependency sets: every remaining entry is
still a subset of its alias's entry in the original mapping. -/
theorem passOnce_prov (m : DepMap) (sorted_ : List String) (d : DepMap)
    (h : ∀ e ∈ d, ∃ ds0, (e.1, ds0) ∈ m ∧ e.2 ⊆ ds0) :
    ∀ e ∈ (passOnce sorted_ d).2.2, ∃ ds0, (e.1, ds0) ∈ m ∧ e.2 ⊆ ds0 := by
  induction d generalizing sorted_ with
  | nil => simp [passOnce]
  | cons p rest ih =>
      obtain ⟨k, ds⟩ := p
      simp only [passOnce]
      split
      · intro e he
        rcases List.mem_cons.mp he with rfl | hm
        · exact h (k, ds) (List.mem_cons_self _ _)
        · exact ih sorted_ (fun e' he' => h e' (List.mem_cons_of_mem _ he')) e hm
      · split
        · exact ih (sorted_ ++ [k]) (fun e' he' => h e' (List.mem_cons_of_mem _ he'))
        · intro e he
          rcases List.mem_cons.mp he with rfl | hm
          · obtain ⟨ds0, hds0m, hsub⟩ := h (k, ds) (List.mem_cons_self _ _)
            exact ⟨ds0, hds0m, fun z hz => hsub (List.mem_of_mem_filter hz)⟩
          · exact ih sorted_ (fun e' he' => h e' (List.mem_cons_of_mem _ he')) e hm

/-- One pass preserves "every working dependency is a key of `m` or in
the output". -/
theorem passOnce_keyOr (m : DepMap) (sorted_ : List String) (d : DepMap)
    (h : ∀ e ∈ d, ∀ y ∈ e.2, isKeyOf m y = true ∨ y ∈ sorted_) :
    ∀ e ∈ (passOnce sorted_ d).2.2, ∀ y ∈ e.2,
      isKeyOf m y = true ∨ y ∈ (passOnce sorted_ d).2.1 := by
  induction d generalizing sorted_ with
  | nil => simp [passOnce]
  | cons p rest ih =>
      obtain ⟨k, ds⟩ := p
      simp only [passOnce]
      split
      · intro e he y hy
        rcases List.mem_cons.mp he with rfl | hm
        · rcases h (k, ds) (List.mem_cons_self _ _) y hy with h1 | h1
          · exact Or.inl h1
          · exact Or.inr ((passOnce_sorted_pre sorted_ rest).subset h1)
        · exact ih sorted_ (fun e' he' => h e' (List.mem_cons_of_mem _ he')) e hm y hy
      · split
        · refine ih (sorted_ ++ [k]) ?_
          intro e' he' y hy
          rcases h e' (List.mem_cons_of_mem _ he') y hy with h1 | h1
          · exact Or.inl h1
          · exact Or.inr (List.mem_append.mpr (Or.inl h1))
        · intro e he y hy
          rcases List.mem_cons.mp he with rfl | hm
          · have hy' : y ∈ ds := List.mem_of_mem_filter hy
            rcases h (k, ds) (List.mem_cons_self _ _) y hy' with h1 | h1
            · exact Or.inl h1
            · exact Or.inr ((passOnce_sorted_pre sorted_ rest).subset h1)
          · exact ih sorted_ (fun e' he' => h e' (List.mem_cons_of_mem _ he')) e hm y hy

/-- One pass preserves "every key of `m` is in the output or among the
working keys". -/
theorem passOnce_cover (sorted_ : List String) (d : DepMap) (k : String)
    (h : k ∈ sorted_ ∨ k ∈ d.map Prod.fst) :
    k ∈ (passOnce sorted_ d).2.1 ∨ k ∈ (passOnce sorted_ d).2.2.map Prod.fst := by
  induction d generalizing sorted_ with
  | nil => simpa [passOnce] using h
  | cons p rest ih =>
      obtain ⟨k0, ds⟩ := p
      simp only [passOnce]
      split
      · rcases h with hs | hd
        · rcases ih sorted_ (Or.inl hs) with h1 | h1
          · exact Or.inl h1
          · exact Or.inr (by simp only [List.map_cons]; exact List.mem_cons_of_mem _ h1)
        · simp only [List.map_cons] at hd
          rcases List.mem_cons.mp hd with rfl | hd'
          · exact Or.inr (by simp)
          · rcases ih sorted_ (Or.inr hd') with h1 | h1
            · exact Or.inl h1
            · exact Or.inr (by simp only [List.map_cons]; exact List.mem_cons_of_mem _ h1)
      · split
        · rcases h with hs | hd
          · exact ih (sorted_ ++ [k0]) (Or.inl (List.mem_append.mpr (Or.inl hs)))
          · simp only [List.map_cons] at hd
            rcases List.mem_cons.mp hd with rfl | hd'
            · exact ih (sorted_ ++ [k]) (Or.inl (List.mem_append.mpr (Or.inr (by simp))))
            · exact ih (sorted_ ++ [k0]) (Or.inr hd')
        · rcases h with hs | hd
          · rcases ih sorted_ (Or.inl hs) with h1 | h1
            · exact Or.inl h1
            · exact Or.inr (by simp only [List.map_cons]; exact List.mem_cons_of_mem _ h1)
          · simp only [List.map_cons] at hd
            rcases List.mem_cons.mp hd with rfl | hd'
            · exact Or.inr (by simp)
            · rcases ih sorted_ (Or.inr hd') with h1 | h1
              · exact Or.inl h1
              · exact Or.inr (by simp only [List.map_cons]; exact List.mem_cons_of_mem _ h1)

/-- One pass preserves the whole loop invariant. -/
theorem passOnce_inv (m : DepMap) (sorted_ : List String) (d : DepMap)
    (h : solverInv m sorted_ d) :
    solverInv m (passOnce sorted_ d).2.1 (passOnce sorted_ d).2.2 := by
  obtain ⟨h1, h2, h3, h4, h5⟩ := h
  exact ⟨List.Nodup.sublist (passOnce_keys sorted_ d) h1,
    passOnce_nonempty sorted_ d h2,
    passOnce_prov m sorted_ d h3,
    passOnce_keyOr m sorted_ d h4,
    fun k hk => passOnce_cover sorted_ d k (h5 k hk)⟩

/-- If no member of `c` has been output and every member's remaining
entry still contains a member of `c`, one pass outputs no member of
`c`. -/
theorem passOnce_cycle_sorted (c : List String) (sorted_ : List String) (d : DepMap)
    (hs : ∀ x ∈ c, x ∉ sorted_)
    (hd : ∀ x ∈ c, ∀ ds, (x, ds) ∈ d → ∃ y ∈ c, y ∈ ds) :
    ∀ x ∈ c, x ∉ (passOnce sorted_ d).2.1 := by
  induction d generalizing sorted_ with
  | nil => simpa [passOnce] using hs
  | cons p rest ih =>
      obtain ⟨k, ds⟩ := p
      simp only [passOnce]
      split
      · exact ih sorted_ hs
          (fun x hx ds' hds' => hd x hx ds' (List.mem_cons_of_mem _ hds'))
      · split
        · rename_i hflt hall
          have hk : k ∉ c := by
            intro hkc
            obtain ⟨y, hyc, hyds⟩ := hd k hkc ds (List.mem_cons_self _ _)
            have hys : y ∈ sorted_ := by
              have := List.all_eq_true.mp hall y hyds
              simpa using this
            exact hs y hyc hys
          refine ih (sorted_ ++ [k]) ?_
            (fun x hx ds' hds' => hd x hx ds' (List.mem_cons_of_mem _ hds'))
          intro x hx
          simp only [List.mem_append, List.mem_singleton, not_or]
          exact ⟨hs x hx, fun hxk => hk (hxk ▸ hx)⟩
        · exact ih sorted_ hs
            (fun x hx ds' hds' => hd x hx ds' (List.mem_cons_of_mem _ hds'))

/-- One pass keeps, for every member of `c`, each of its remaining
entries containing a member of `c`. -/
theorem passOnce_cycle_entry (c : List String) (sorted_ : List String) (d : DepMap)
    (hs : ∀ x ∈ c, x ∉ sorted_)
    (hd : ∀ x ∈ c, ∀ ds, (x, ds) ∈ d → ∃ y ∈ c, y ∈ ds) :
    ∀ x ∈ c, ∀ ds, (x, ds) ∈ (passOnce sorted_ d).2.2 → ∃ y ∈ c, y ∈ ds := by
  induction d generalizing sorted_ with
  | nil => simp [passOnce]
  | cons p rest ih =>
      obtain ⟨k, ds⟩ := p
      simp only [passOnce]
      split
      · intro x hx ds' hds'
        rcases List.mem_cons.mp hds' with heq | hm
        · injection heq with h1 h2
          subst h1; subst h2
          exact hd x hx ds' (List.mem_cons_self _ _)
        · exact ih sorted_ hs
            (fun x' hx' ds'' hds'' => hd x' hx' ds'' (List.mem_cons_of_mem _ hds''))
            x hx ds' hm
      · split
        · rename_i hflt hall
          have hk : k ∉ c := by
            intro hkc
            obtain ⟨y, hyc, hyds⟩ := hd k hkc ds (List.mem_cons_self _ _)
            have hys : y ∈ sorted_ := by
              have := List.all_eq_true.mp hall y hyds
              simpa using this
            exact hs y hyc hys
          refine ih (sorted_ ++ [k]) ?_
            (fun x hx ds' hds' => hd x hx ds' (List.mem_cons_of_mem _ hds'))
          intro x hx
          simp only [List.mem_append, List.mem_singleton, not_or]
          exact ⟨hs x hx, fun hxk => hk (hxk ▸ hx)⟩
        · rename_i hflt hall
          intro x hx ds' hds'
          rcases List.mem_cons.mp hds' with heq | hm
          · injection heq with h1 h2
            subst h1
            obtain ⟨y, hyc, hyds⟩ := hd x hx ds (List.mem_cons_self _ _)
            refine ⟨y, hyc, ?_⟩
            rw [h2, List.mem_filter]
            exact ⟨hyds, by simpa using hs y hyc⟩
          · exact ih sorted_ hs
              (fun x' hx' ds'' hds'' => hd x' hx' ds'' (List.mem_cons_of_mem _ hds''))
              x hx ds' hm

/-- One pass keeps every member of `c` among the working keys. -/
theorem passOnce_cycle_key (c : List String) (sorted_ : List String) (d : DepMap)
    (hs : ∀ x ∈ c, x ∉ sorted_)
    (hd : ∀ x ∈ c, ∀ ds, (x, ds) ∈ d → ∃ y ∈ c, y ∈ ds) :
    ∀ x ∈ c, x ∈ d.map Prod.fst → x ∈ (passOnce sorted_ d).2.2.map Prod.fst := by
  induction d generalizing sorted_ with
  | nil => simp [passOnce]
  | cons p rest ih =>
      obtain ⟨k, ds⟩ := p
      simp only [passOnce]
      split
      · intro x hx hxd
        simp only [List.map_cons] at hxd ⊢
        rcases List.mem_cons.mp hxd with rfl | hm
        · exact List.mem_cons_self _ _
        · exact List.mem_cons_of_mem _
            (ih sorted_ hs
              (fun x' hx' ds'' hds'' => hd x' hx' ds'' (List.mem_cons_of_mem _ hds''))
              x hx hm)
      · split
        · rename_i hflt hall
          have hk : k ∉ c := by
            intro hkc
            obtain ⟨y, hyc, hyds⟩ := hd k hkc ds (List.mem_cons_self _ _)
            have hys : y ∈ sorted_ := by
              have := List.all_eq_true.mp hall y hyds
              simpa using this
            exact hs y hyc hys
          intro x hx hxd
          simp only [List.map_cons] at hxd
          rcases List.mem_cons.mp hxd with rfl | hm
          · exact absurd hx hk
          · refine ih (sorted_ ++ [k]) ?_
              (fun x' hx' ds'' hds'' => hd x' hx' ds'' (List.mem_cons_of_mem _ hds''))
              x hx hm
            intro x' hx'
            simp only [List.mem_append, List.mem_singleton, not_or]
            exact ⟨hs x' hx', fun hxk => hk (hxk ▸ hx')⟩
        · intro x hx hxd
          simp only [List.map_cons] at hxd ⊢
          rcases List.mem_cons.mp hxd with rfl | hm
          · exact List.mem_cons_self _ _
          · exact List.mem_cons_of_mem _
              (ih sorted_ hs
                (fun x' hx' ds'' hds'' => hd x' hx' ds'' (List.mem_cons_of_mem _ hds''))
                x hx hm)

/-- With fuel above the working map's total size, the `while updated`
loop reaches a fixpoint: one more pass would report no progress. -/
theorem whileLoop_fix :
    ∀ (fuel : Nat) (sorted_ : List String) (d : DepMap), totalSize d < fuel →
      (passOnce (whileLoop fuel sorted_ d).1 (whileLoop fuel sorted_ d).2).1 = false := by
  intro fuel
  induction fuel with
  | zero => intro s d h; exact absurd h (Nat.not_lt_zero _)
  | succ n ih =>
      intro s d h
      simp only [whileLoop]
      cases hp : passOnce s d with
      | mk u rest =>
          obtain ⟨s', d'⟩ := rest
          have hspec := passOnce_spec s d
          rw [hp] at hspec
          cases u
          · simp only
            have h2 := hspec.2 rfl
            simp only at h2
            rw [h2.1, h2.2, hp]
          · simp only
            refine ih s' d' ?_
            have := hspec.1 rfl
            simp only at this
            omega

/-- The `while updated` loop preserves the loop invariant. -/
theorem whileLoop_inv (m : DepMap) :
    ∀ (fuel : Nat) (sorted_ : List String) (d : DepMap),
      solverInv m sorted_ d →
      solverInv m (whileLoop fuel sorted_ d).1 (whileLoop fuel sorted_ d).2 := by
  intro fuel
  induction fuel with
  | zero => intro s d h; simpa [whileLoop] using h
  | succ n ih =>
      intro s d h
      simp only [whileLoop]
      cases hp : passOnce s d with
      | mk u rest =>
          obtain ⟨s', d'⟩ := rest
          have hinv := passOnce_inv m s d h
          rw [hp] at hinv
          cases u
          · simpa using hinv
          · simp only
            exact ih s' d' hinv

/-- The `while updated` loop never outputs a member of a
successor-closed collection `c`, keeps each member's remaining entries
containing a member of `c`, and keeps every member among the working
keys. -/
theorem whileLoop_cycle (c : List String) :
    ∀ (fuel : Nat) (sorted_ : List String) (d : DepMap),
      (∀ x ∈ c, x ∉ sorted_) →
      (∀ x ∈ c, ∀ ds, (x, ds) ∈ d → ∃ y ∈ c, y ∈ ds) →
      (∀ x ∈ c, x ∉ (whileLoop fuel sorted_ d).1) ∧
      (∀ x ∈ c, ∀ ds, (x, ds) ∈ (whileLoop fuel sorted_ d).2 → ∃ y ∈ c, y ∈ ds) ∧
      (∀ x ∈ c, x ∈ d.map Prod.fst → x ∈ (whileLoop fuel sorted_ d).2.map Prod.fst) := by
  intro fuel
  induction fuel with
  | zero =>
      intro s d hs hd
      simp only [whileLoop]
      exact ⟨hs, hd, fun x hx h => h⟩
  | succ n ih =>
      intro s d hs hd
      simp only [whileLoop]
      cases hp : passOnce s d with
      | mk u rest =>
          obtain ⟨s', d'⟩ := rest
          have h1 := passOnce_cycle_sorted c s d hs hd
          have h2 := passOnce_cycle_entry c s d hs hd
          have h3 := passOnce_cycle_key c s d hs hd
          rw [hp] at h1 h2 h3
          cases u
          · simp only
            exact ⟨h1, h2, fun x hx hxd => h3 x hx hxd⟩
          · simp only
            obtain ⟨g1, g2, g3⟩ := ih s' d' h1 h2
            exact ⟨g1, g2, fun x hx hxd => g3 x hx (h3 x hx hxd)⟩

/-- With duplicate-free keys, popping an alias whose set is nonempty
succeeds, returns the set's first element, preserves the key list, and
only shrinks that alias's entry. -/
theorem popDep_mem (d : DepMap) (hnd : (d.map Prod.fst).Nodup)
    (k y : String) (ys : List String) (h : (k, y :: ys) ∈ d) :
    ∃ d₂, popDep d k = some (y, d₂) ∧
      d₂.map Prod.fst = d.map Prod.fst ∧
      (k, ys) ∈ d₂ ∧
      ∀ e ∈ d₂, e ∈ d ∨ e = (k, ys) := by
  induction d with
  | nil => simp at h
  | cons p rest ih =>
      obtain ⟨k0, ds0⟩ := p
      simp only [List.map_cons, List.nodup_cons] at hnd
      by_cases hk : k0 = k
      · subst hk
        have hds : ds0 = y :: ys := by
          rcases List.mem_cons.mp h with heq | hmem
          · injection heq with h1 h2
            exact h2.symm
          · exact absurd (List.mem_map_of_mem Prod.fst hmem) hnd.1
        subst hds
        refine ⟨(k0, ys) :: rest, ?_, by simp, List.mem_cons_self _ _, ?_⟩
        · simp [popDep]
        · intro e he
          rcases List.mem_cons.mp he with rfl | hm
          · exact Or.inr rfl
          · exact Or.inl (List.mem_cons_of_mem _ hm)
      · have hmem : (k, y :: ys) ∈ rest := by
          rcases List.mem_cons.mp h with heq | hm
          · injection heq with h1 h2
            exact absurd h1.symm hk
          · exact hm
        obtain ⟨rest₂, hpop, hkeys, hmem₂, hsub⟩ := ih hnd.2 hmem
        refine ⟨(k0, ds0) :: rest₂, ?_, by simp [hkeys],
          List.mem_cons_of_mem _ hmem₂, ?_⟩
        · simp only [popDep]
          rw [if_neg hk, hpop]
        · intro e he
          rcases List.mem_cons.mp he with rfl | hm
          · exact Or.inl (List.mem_cons_self _ _)
          · rcases hsub e hm with h1 | h1
            · exact Or.inl (List.mem_cons_of_mem _ h1)
            · exact Or.inr h1

/-- The cycle walk of `solve()`'s failure branch, run from a valid
history inside the stuck working map, extends the history by a
nonempty walk; the full result follows graph edges, repeats its last
element among the earlier ones, has pairwise-distinct elements apart
from that repeat, and stays within the working keys. -/
theorem findLoop_spec (m : DepMap) :
    ∀ (fuel : Nat) (deps : DepMap) (prior : List String) (last : String),
      totalSize deps < fuel →
      (deps.map Prod.fst).Nodup →
      (∀ e ∈ deps, ∃ ds0, (e.1, ds0) ∈ m ∧ e.2 ⊆ ds0) →
      (∀ e ∈ deps, ∀ y ∈ e.2, y ∈ deps.map Prod.fst) →
      (∀ e ∈ deps, e.1 ∉ prior → e.2 ≠ []) →
      prior.Nodup →
      (∀ p ∈ prior, p ∈ deps.map Prod.fst) →
      last ∈ deps.map Prod.fst →
      List.Chain' (depEdge m) (prior ++ [last]) →
      (∃ t, findLoop fuel deps prior last = prior ++ t ∧ t ≠ []) ∧
      (findLoop fuel deps prior last).dropLast.Nodup ∧
      (∃ z, (findLoop fuel deps prior last).getLast? = some z ∧
        z ∈ (findLoop fuel deps prior last).dropLast) ∧
      List.Chain' (depEdge m) (findLoop fuel deps prior last) ∧
      (∀ y ∈ findLoop fuel deps prior last, y ∈ deps.map Prod.fst) := by
  intro fuel
  induction fuel with
  | zero =>
      intro deps prior last hfuel
      exact absurd hfuel (Nat.not_lt_zero _)
  | succ n ih =>
      intro deps prior last hfuel hnd hprov hclo hne hpnd hpk hlk hch
      by_cases hmem : last ∈ prior
      · have hres : findLoop (n + 1) deps prior last = prior ++ [last] := by
          simp [findLoop, hmem]
        rw [hres]
        refine ⟨⟨[last], rfl, by simp⟩, ?_, ?_, hch, ?_⟩
        · rw [dropLast_app1]
          exact hpnd
        · exact ⟨last, getLast?_app1 prior last, by rw [dropLast_app1]; exact hmem⟩
        · intro y hy
          rcases List.mem_append.mp hy with h1 | h2
          · exact hpk y h1
          · rw [List.mem_singleton] at h2
            subst h2
            exact hlk
      · obtain ⟨e, hed, hefst⟩ := List.mem_map.mp hlk
        obtain ⟨last', ds⟩ := e
        simp only at hefst
        subst hefst
        have hdsne : ds ≠ [] := hne (last', ds) hed (by simpa using hmem)
        rcases hds : ds with _ | ⟨y, ys⟩
        · exact absurd hds hdsne
        subst hds
        obtain ⟨d₂, hpop, hkeys, hmem₂, hsub⟩ := popDep_mem deps hnd last' y ys hed
        have hres : findLoop (n + 1) deps prior last' =
            findLoop n d₂ (prior ++ [last']) y := by
          simp only [findLoop]
          rw [if_neg hmem, hpop]
        rw [hres]
        obtain ⟨ds0, hds0m, hds0sub⟩ := hprov (last', y :: ys) hed
        have hedge : depEdge m last' y := ⟨ds0, hds0m, hds0sub (by simp)⟩
        have hts : totalSize d₂ < n := by
          have := popDep_totalSize deps last' y d₂ hpop
          omega
        have hnd₂ : (d₂.map Prod.fst).Nodup := by
          rw [hkeys]
          exact hnd
        have hprov₂ : ∀ e ∈ d₂, ∃ ds0, (e.1, ds0) ∈ m ∧ e.2 ⊆ ds0 := by
          intro e he
          rcases hsub e he with h1 | h1
          · exact hprov e h1
          · subst h1
            exact ⟨ds0, hds0m, fun z hz => hds0sub (List.mem_cons_of_mem _ hz)⟩
        have hclo₂ : ∀ e ∈ d₂, ∀ z ∈ e.2, z ∈ d₂.map Prod.fst := by
          intro e he z hz
          rw [hkeys]
          rcases hsub e he with h1 | h1
          · exact hclo e h1 z hz
          · subst h1
            exact hclo (last', y :: ys) hed z (List.mem_cons_of_mem _ hz)
        have hne₂ : ∀ e ∈ d₂, e.1 ∉ prior ++ [last'] → e.2 ≠ [] := by
          intro e he hep
          simp only [List.mem_append, List.mem_singleton, not_or] at hep
          rcases hsub e he with h1 | h1
          · exact hne e h1 hep.1
          · subst h1
            exact absurd rfl hep.2
        have hpnd₂ : (prior ++ [last']).Nodup := by
          rw [List.nodup_append]
          refine ⟨hpnd, List.nodup_singleton _, ?_⟩
          intro a ha hb
          rw [List.mem_singleton] at hb
          subst hb
          exact hmem ha
        have hpk₂ : ∀ p ∈ prior ++ [last'], p ∈ d₂.map Prod.fst := by
          intro p hp
          rw [hkeys]
          rcases List.mem_append.mp hp with h1 | h1
          · exact hpk p h1
          · rw [List.mem_singleton] at h1
            subst h1
            exact hlk
        have hyk : y ∈ d₂.map Prod.fst := by
          rw [hkeys]
          exact hclo (last', y :: ys) hed y (by simp)
        have hch₂ : List.Chain' (depEdge m) ((prior ++ [last']) ++ [y]) := by
          refine List.Chain'.append hch (List.chain'_singleton y) ?_
          intro a ha b hb
          rw [getLast?_app1] at ha
          simp only [Option.mem_def, Option.some.injEq] at ha
          simp only [List.head?_cons, Option.mem_def, Option.some.injEq] at hb
          rw [← ha, ← hb]
          exact hedge
        obtain ⟨⟨t, hteq, htne⟩, hnd', hrep', hch', hkeys'⟩ :=
          ih d₂ (prior ++ [last']) y hts hnd₂ hprov₂ hclo₂ hne₂ hpnd₂ hpk₂ hyk hch₂
        refine ⟨⟨[last'] ++ t, by rw [hteq, List.append_assoc], by simp⟩,
          hnd', hrep', hch', ?_⟩
        intro z hz
        have hz' := hkeys' z hz
        rw [hkeys] at hz'
        exact hz'

/-- Phase 1 establishes the loop invariant. -/
theorem phase1_inv (m : DepMap) (hnd : (m.map Prod.fst).Nodup) :
    solverInv m (phase1 m m ([], [])).1 (phase1 m m ([], [])).2 := by
  unfold solverInv
  rw [phase1_spec m m [] []]
  simp only [List.nil_append]
  refine ⟨?_, ?_, ?_, ?_, ?_⟩
  · exact List.Nodup.sublist (List.Sublist.map Prod.fst (List.filter_sublist m)) hnd
  · intro e he
    have := (List.mem_filter.mp he).2
    simpa using this
  · intro e he
    refine ⟨e.2, ?_, fun z hz => hz⟩
    rw [Prod.mk.eta]
    exact List.mem_of_mem_filter he
  · intro e he y hy
    by_cases hkey : isKeyOf m y = true
    · exact Or.inl hkey
    · refine Or.inr (List.mem_flatMap.mpr ⟨e, List.mem_of_mem_filter he, ?_⟩)
      have hne : ¬ e.2 = [] := by simpa using (List.mem_filter.mp he).2
      rw [if_neg hne]
      rw [List.mem_filter]
      exact ⟨hy, by simpa using hkey⟩
  · intro k hk
    rw [isKeyOf_iff_mem] at hk
    obtain ⟨e, hem, hek⟩ := List.mem_map.mp hk
    by_cases he2 : e.2 = []
    · refine Or.inl (List.mem_flatMap.mpr ⟨e, hem, ?_⟩)
      rw [if_pos he2]
      simp [hek]
    · refine Or.inr (List.mem_map.mpr ⟨e, ?_, hek⟩)
      rw [List.mem_filter]
      exact ⟨hem, by simpa using he2⟩

/-- Phase 1 establishes the cycle facts: no member of a
successor-closed collection is output, every member's working entry
contains a member, and every member remains a working key. -/
theorem phase1_cycle (m : DepMap) (hnd : (m.map Prod.fst).Nodup)
    (c : List String)
    (hcen : ∀ x ∈ c, ∃ ds, (x, ds) ∈ m ∧ ∃ y ∈ c, y ∈ ds) :
    (∀ x ∈ c, x ∉ (phase1 m m ([], [])).1) ∧
    (∀ x ∈ c, ∀ ds, (x, ds) ∈ (phase1 m m ([], [])).2 → ∃ y ∈ c, y ∈ ds) ∧
    (∀ x ∈ c, x ∈ (phase1 m m ([], [])).2.map Prod.fst) := by
  rw [phase1_spec m m [] []]
  simp only [List.nil_append]
  refine ⟨?_, ?_, ?_⟩
  · intro x hx hmem
    obtain ⟨dsx, hdsxm, y, hyc, hyds⟩ := hcen x hx
    obtain ⟨e, hem, hein⟩ := List.mem_flatMap.mp hmem
    by_cases he2 : e.2 = []
    · rw [if_pos he2] at hein
      rw [List.mem_singleton] at hein
      subst hein
      have hde : dsx = e.2 :=
        entry_unique m hnd e.1 dsx e.2 hdsxm (by rw [Prod.mk.eta]; exact hem)
      rw [hde, he2] at hyds
      simp at hyds
    · rw [if_neg he2] at hein
      have hnk := (List.mem_filter.mp hein).2
      have hxk : isKeyOf m x = true := by
        rw [isKeyOf_iff_mem]
        exact List.mem_map_of_mem Prod.fst hdsxm
      simp [hxk] at hnk
  · intro x hx ds hds
    obtain ⟨dsx, hdsxm, y, hyc, hyds⟩ := hcen x hx
    have hdm : (x, ds) ∈ m := List.mem_of_mem_filter hds
    have hde : ds = dsx := entry_unique m hnd x ds dsx hdm hdsxm
    exact ⟨y, hyc, hde ▸ hyds⟩
  · intro x hx
    obtain ⟨dsx, hdsxm, y, hyc, hyds⟩ := hcen x hx
    have hne : ¬ dsx = [] := fun h => by simp [h] at hyds
    refine List.mem_map.mpr ⟨(x, dsx), ?_, rfl⟩
    rw [List.mem_filter]
    exact ⟨hdsxm, by simpa using hne⟩

/-- Evaluation of `dsSolve` when the loop got stuck: the failure
branch runs the cycle walk from the first stuck alias. -/
theorem dsSolve_stuck (m : DepMap) (item y : String) (ys : List String)
    (rest : DepMap)
    (hw2 : (whileLoop (totalSize (phase1 m m ([], [])).2 + 1)
        (phase1 m m ([], [])).1 (phase1 m m ([], [])).2).2 =
      (item, y :: ys) :: rest) :
    dsSolve m = .error
      (findLoop (totalSize ((item, ys) :: rest) + 1)
        ((item, ys) :: rest) [item] y) := by
  simp only [dsSolve]
  split
  · rename_i heq
    rw [hw2] at heq
    exact absurd heq (by simp)
  · rename_i item' ds' rest' heq
    rw [hw2] at heq
    injection heq with h1 h2
    injection h1 with h1a h1b
    subst h1a
    subst h2
    rw [hw2]
    rw [show popDep ((item, y :: ys) :: rest) item = some (y, (item, ys) :: rest)
      by simp [popDep]]

/-- **C4, amended.**  For every dependency mapping (with distinct
keys) containing a cycle, `solve` raises `DependencyLoop`; the
reported list is a walk along graph edges through the mapping's keys
whose final element repeats an earlier element and whose other
elements are pairwise distinct — but the walk starts at an *arbitrary*
stuck alias, so (cf. the counterexample) it need not start and end on
the repeated node: it is a path leading into a cycle. -/
theorem c4_amended (m : DepMap) (hnd : (m.map Prod.fst).Nodup)
    (hcyc : hasCycle m) :
    ∃ l, dsSolve m = .error l ∧ 2 ≤ l.length ∧
      (∀ y ∈ l, isKeyOf m y = true) ∧
      List.Chain' (depEdge m) l ∧
      l.dropLast.Nodup ∧
      ∃ z, l.getLast? = some z ∧ z ∈ l.dropLast := by
  obtain ⟨c, hcne, hcen⟩ := hcyc
  obtain ⟨p1s, p1e, p1k⟩ := phase1_cycle m hnd c hcen
  have hinv0 := phase1_inv m hnd
  obtain ⟨ws, we, wk⟩ := whileLoop_cycle c (totalSize (phase1 m m ([], [])).2 + 1)
    (phase1 m m ([], [])).1 (phase1 m m ([], [])).2 p1s p1e
  have hinvw := whileLoop_inv m (totalSize (phase1 m m ([], [])).2 + 1)
    (phase1 m m ([], [])).1 (phase1 m m ([], [])).2 hinv0
  have hfix := whileLoop_fix (totalSize (phase1 m m ([], [])).2 + 1)
    (phase1 m m ([], [])).1 (phase1 m m ([], [])).2 (Nat.lt_succ_self _)
  obtain ⟨hwnd, hwne, hwprov, hwkeyOr, hwcover⟩ := hinvw
  have hdisj := passOnce_false_inter _ _ hfix
  set W := whileLoop (totalSize (phase1 m m ([], [])).2 + 1)
    (phase1 m m ([], [])).1 (phase1 m m ([], [])).2 with hW
  have hcloW : ∀ e ∈ W.2, ∀ z ∈ e.2, z ∈ W.2.map Prod.fst := by
    intro e he z hz
    have hznot : z ∉ W.1 := by
      intro hzs
      have hzf : z ∈ e.2.filter (fun x => x ∈ W.1) :=
        List.mem_filter.mpr ⟨hz, by simpa using hzs⟩
      rw [hdisj e he] at hzf
      simp at hzf
    rcases hwkeyOr e he z hz with h1 | h1
    · rcases hwcover z h1 with h2 | h2
      · exact absurd h2 hznot
      · exact h2
    · exact absurd h1 hznot
  obtain ⟨x₀, hx₀⟩ := List.exists_mem_of_ne_nil c hcne
  have hx₀k : x₀ ∈ W.2.map Prod.fst := wk x₀ hx₀ (p1k x₀ hx₀)
  rcases hw2 : W.2 with _ | ⟨⟨item, ds₁⟩, rest⟩
  · rw [hw2] at hx₀k
    simp at hx₀k
  · have hds₁ : ds₁ ≠ [] :=
      hwne (item, ds₁) (by rw [hw2]; exact List.mem_cons_self _ _)
    cases ds₁ with
    | nil => exact absurd rfl hds₁
    | cons y ys =>
        have hw2' : (whileLoop (totalSize (phase1 m m ([], [])).2 + 1)
            (phase1 m m ([], [])).1 (phase1 m m ([], [])).2).2 =
            (item, y :: ys) :: rest := by
          rw [← hW]
          exact hw2
        have hsolve := dsSolve_stuck m item y ys rest hw2'
        have hmemW : (item, y :: ys) ∈ W.2 := by
          rw [hw2]
          exact List.mem_cons_self _ _
        have hkeysW : W.2.map Prod.fst = item :: rest.map Prod.fst := by
          rw [hw2]
          simp
        obtain ⟨ds0, hds0m, hds0sub⟩ := hwprov (item, y :: ys) hmemW
        have hedge : depEdge m item y := ⟨ds0, hds0m, hds0sub (by simp)⟩
        have hnd' : (((item, ys) :: rest).map Prod.fst).Nodup := by
          have h := hwnd
          rw [hkeysW] at h
          simpa using h
        have hprov' : ∀ e ∈ (item, ys) :: rest,
            ∃ ds0, (e.1, ds0) ∈ m ∧ e.2 ⊆ ds0 := by
          intro e he
          rcases List.mem_cons.mp he with rfl | hm
          · exact ⟨ds0, hds0m, fun z hz => hds0sub (List.mem_cons_of_mem _ hz)⟩
          · exact hwprov e (by rw [hw2]; exact List.mem_cons_of_mem _ hm)
        have hclo' : ∀ e ∈ (item, ys) :: rest, ∀ z ∈ e.2,
            z ∈ ((item, ys) :: rest).map Prod.fst := by
          intro e he z hz
          have hkmem : z ∈ W.2.map Prod.fst := by
            rcases List.mem_cons.mp he with rfl | hm
            · exact hcloW (item, y :: ys) hmemW z (List.mem_cons_of_mem _ hz)
            · exact hcloW e (by rw [hw2]; exact List.mem_cons_of_mem _ hm) z hz
          rw [hkeysW] at hkmem
          simpa using hkmem
        have hne' : ∀ e ∈ (item, ys) :: rest,
            e.1 ∉ ([item] : List String) → e.2 ≠ [] := by
          intro e he hep
          rcases List.mem_cons.mp he with rfl | hm
          · simp at hep
          · exact hwne e (by rw [hw2]; exact List.mem_cons_of_mem _ hm)
        have hlk' : y ∈ ((item, ys) :: rest).map Prod.fst := by
          have h := hcloW (item, y :: ys) hmemW y (by simp)
          rw [hkeysW] at h
          simpa using h
        have hch' : List.Chain' (depEdge m) (([item] : List String) ++ [y]) := by
          simpa using List.chain'_pair.mpr hedge
        obtain ⟨⟨t, hteq, htne⟩, hnodup, hrep, hchain, hkeysl⟩ :=
          findLoop_spec m (totalSize ((item, ys) :: rest) + 1) ((item, ys) :: rest)
            [item] y (Nat.lt_succ_self _) hnd' hprov' hclo' hne' (by simp)
            (by intro p hp; rw [List.mem_singleton] at hp; subst hp; simp) hlk' hch'
        refine ⟨findLoop (totalSize ((item, ys) :: rest) + 1)
            ((item, ys) :: rest) [item] y,
          hsolve, ?_, ?_, hchain, hnodup, hrep⟩
        · have hp := List.length_pos.mpr htne
          rw [hteq, List.length_append]
          simp only [List.length_singleton]
          omega
        · intro z hz
          have hzk := hkeysl z hz
          simp only [List.map_cons] at hzk
          rw [← hkeysW] at hzk
          obtain ⟨e, hem, hek⟩ := List.mem_map.mp hzk
          obtain ⟨ds0', hds0'm, h0⟩ := hwprov e hem
          rw [isKeyOf_iff_mem, ← hek]
          exact List.mem_map.mpr ⟨(e.1, ds0'), hds0'm, rfl⟩

/-- **C4, witness** for the amended theorem on `{a: {b}, b: {c},
c: {b}}`, whose collection `{b, c}` is successor-closed. -/
theorem c4_amended_witness :
    ∃ l, dsSolve [("a", ["b"]), ("b", ["c"]), ("c", ["b"])] = .error l ∧
      2 ≤ l.length ∧
      (∀ y ∈ l, isKeyOf [("a", ["b"]), ("b", ["c"]), ("c", ["b"])] y = true) ∧
      List.Chain' (depEdge [("a", ["b"]), ("b", ["c"]), ("c", ["b"])]) l ∧
      l.dropLast.Nodup ∧
      ∃ z, l.getLast? = some z ∧ z ∈ l.dropLast := by
  refine c4_amended [("a", ["b"]), ("b", ["c"]), ("c", ["b"])] (by decide)
    ⟨["b", "c"], by decide, ?_⟩
  intro x hx
  rcases List.mem_cons.mp hx with rfl | hx'
  · exact ⟨["c"], by decide, "c", by decide, by decide⟩
  · rcases List.mem_cons.mp hx' with rfl | hx''
    · exact ⟨["b"], by decide, "b", by decide, by decide⟩
    · simp at hx''
